import Mathlib

/-!
Verification development for the s3-browser repository.

Strings from the JavaScript side are modelled as `List Char`, where `Char` is a
Unicode scalar value (well-formed JS strings contain no lone surrogates).
Platform builtins used by the source (`encodeURIComponent`, `decodeURIComponent`,
`btoa`, `atob`, `JSON.stringify`, `JSON.parse`, `localStorage`) are modelled from
their standard specifications; fallible builtins return `Option`, where `none`
models a thrown exception.
-/

namespace S3Browser

/-! ## Hexadecimal digits -/

/-- Upper-case hexadecimal digit, as produced by `encodeURIComponent` escapes. -/
def hexUpper (n : Nat) : Char :=
  if n < 10 then Char.ofNat (48 + n) else Char.ofNat (55 + n)

/-- Lower-case hexadecimal digit, as produced by `JSON.stringify` u-escapes. -/
def hexLower (n : Nat) : Char :=
  if n < 10 then Char.ofNat (48 + n) else Char.ofNat (87 + n)

/-- Value of a hexadecimal digit character (either case), `none` otherwise. -/
def hexVal (c : Char) : Option Nat :=
  if 48 ≤ c.toNat ∧ c.toNat ≤ 57 then some (c.toNat - 48)
  else if 65 ≤ c.toNat ∧ c.toNat ≤ 70 then some (c.toNat - 55)
  else if 97 ≤ c.toNat ∧ c.toNat ≤ 102 then some (c.toNat - 87)
  else none

/-! ## Model of `encodeURIComponent` / `decodeURIComponent` (ECMA-262) -/

/-- Characters left unescaped by `encodeURIComponent`:
ASCII alphanumerics and `- _ . ! ~ * ' ( )`. -/
def uriUnreserved (c : Char) : Bool :=
  (65 ≤ c.toNat && c.toNat ≤ 90) || (97 ≤ c.toNat && c.toNat ≤ 122) ||
  (48 ≤ c.toNat && c.toNat ≤ 57) ||
  c.toNat == 45 || c.toNat == 95 || c.toNat == 46 || c.toNat == 33 ||
  c.toNat == 126 || c.toNat == 42 || c.toNat == 39 || c.toNat == 40 || c.toNat == 41

/-- UTF-8 encoding of one Unicode scalar value. -/
def utf8Bytes (c : Char) : List Nat :=
  let n := c.toNat
  if n < 128 then [n]
  else if n < 2048 then [192 + n / 64, 128 + n % 64]
  else if n < 65536 then [224 + n / 4096, 128 + n / 64 % 64, 128 + n % 64]
  else [240 + n / 262144, 128 + n / 4096 % 64, 128 + n / 64 % 64, 128 + n % 64]

/-- Percent escape `%XY` (upper-case hex) of one byte. -/
def pctByte (b : Nat) : List Char :=
  [Char.ofNat 37, hexUpper (b / 16), hexUpper (b % 16)]

/-- Encoding of a single character by `encodeURIComponent`. -/
def encURIChar (c : Char) : List Char :=
  if uriUnreserved c then [c] else (utf8Bytes c).flatMap pctByte

/-- Model of `encodeURIComponent`. -/
def encURI : List Char → List Char
  | [] => []
  | c :: cs => encURIChar c ++ encURI cs

/-- Parse one UTF-8 continuation escape `%XY` with byte value in `[128, 192)`. -/
def decCont : List Char → Option (Nat × List Char)
  | c1 :: h3 :: h4 :: r2 =>
    if c1.toNat = 37 then
      (hexVal h3).bind fun x => (hexVal h4).bind fun y =>
      let b := 16 * x + y
      if 128 ≤ b ∧ b < 192 then some (b, r2) else none
    else none
  | _ => none

/-- Decode one element of a URI-encoded string: either a literal character, or a
full escape cluster (one to four `%XY` escapes forming a valid UTF-8 scalar).
`none` models a thrown `URIError`. -/
def decURIStep : List Char → Option (Char × List Char)
  | [] => none
  | c0 :: r0 =>
    if c0.toNat = 37 then
      match r0 with
      | h1 :: h2 :: r1 =>
        (hexVal h1).bind fun x1 => (hexVal h2).bind fun y1 =>
        let b1 := 16 * x1 + y1
        if b1 < 128 then some (Char.ofNat b1, r1)
        else if b1 < 192 then none
        else if b1 < 224 then
          (decCont r1).bind fun p2 =>
          let v := (b1 - 192) * 64 + (p2.1 - 128)
          if 128 ≤ v then some (Char.ofNat v, p2.2) else none
        else if b1 < 240 then
          (decCont r1).bind fun p2 => (decCont p2.2).bind fun p3 =>
          let v := (b1 - 224) * 4096 + (p2.1 - 128) * 64 + (p3.1 - 128)
          if 2048 ≤ v ∧ (v < 55296 ∨ 57343 < v) then some (Char.ofNat v, p3.2) else none
        else if b1 < 248 then
          (decCont r1).bind fun p2 => (decCont p2.2).bind fun p3 =>
          (decCont p3.2).bind fun p4 =>
          let v := (b1 - 240) * 262144 + (p2.1 - 128) * 4096 + (p3.1 - 128) * 64 +
            (p4.1 - 128)
          if 65536 ≤ v ∧ v < 1114112 then some (Char.ofNat v, p4.2) else none
        else none
      | _ => none
    else some (c0, r0)

/-- Fuelled driver for `decodeURIComponent`; each step consumes at least one
character, so fuel equal to the input length always suffices. -/
def decURIFuel : Nat → List Char → Option (List Char)
  | _, [] => some []
  | 0, _ :: _ => none
  | f + 1, c :: r =>
    (decURIStep (c :: r)).bind fun p => (decURIFuel f p.2).map (p.1 :: ·)

/-- Model of `decodeURIComponent`; `none` models a thrown `URIError`. -/
def decURI (l : List Char) : Option (List Char) := decURIFuel l.length l

/-! ## Model of `btoa` / `atob` (HTML forgiving-base64) -/

/-- Character `n` of the base64 alphabet (`n < 64`). -/
def b64Char (n : Nat) : Char :=
  if n < 26 then Char.ofNat (65 + n)
  else if n < 52 then Char.ofNat (97 + (n - 26))
  else if n < 62 then Char.ofNat (48 + (n - 52))
  else if n = 62 then Char.ofNat 43
  else Char.ofNat 47

/-- Inverse base64 alphabet lookup. -/
def b64CharVal (c : Char) : Option Nat :=
  if 65 ≤ c.toNat ∧ c.toNat ≤ 90 then some (c.toNat - 65)
  else if 97 ≤ c.toNat ∧ c.toNat ≤ 122 then some (c.toNat - 71)
  else if 48 ≤ c.toNat ∧ c.toNat ≤ 57 then some (c.toNat + 4)
  else if c.toNat = 43 then some 62
  else if c.toNat = 47 then some 63
  else none

/-- Base64 encoding of a byte sequence, with `=` padding. -/
def b64EncBytes : List Nat → List Char
  | [] => []
  | [a] => [b64Char (a / 4), b64Char (a % 4 * 16), Char.ofNat 61, Char.ofNat 61]
  | [a, b] =>
    [b64Char (a / 4), b64Char (a % 4 * 16 + b / 16), b64Char (b % 16 * 4), Char.ofNat 61]
  | a :: b :: c :: rest =>
    b64Char (a / 4) :: b64Char (a % 4 * 16 + b / 16) :: b64Char (b % 16 * 4 + c / 64) ::
      b64Char (c % 64) :: b64EncBytes rest

/-- Model of `btoa`: fails (`InvalidCharacterError`) when a character is outside
the Latin-1 range; otherwise base64-encodes the code points as bytes. -/
def btoa (s : List Char) : Option (List Char) :=
  if s.all (fun c => c.toNat ≤ 255) then some (b64EncBytes (s.map Char.toNat))
  else none

/-- ASCII whitespace stripped by forgiving-base64 decoding. -/
def isB64Ws (c : Char) : Bool :=
  c.toNat == 9 || c.toNat == 10 || c.toNat == 12 || c.toNat == 13 || c.toNat == 32

/-- Drop up to two trailing `=` characters of a reversed list. -/
def dropPadRev : List Char → List Char
  | [] => []
  | [c1] => if c1.toNat = 61 then [] else [c1]
  | c1 :: c2 :: r =>
    if c1.toNat = 61 then (if c2.toNat = 61 then r else c2 :: r) else c1 :: c2 :: r

/-- Drop up to two trailing `=` padding characters. -/
def dropPad (l : List Char) : List Char := (dropPadRev l.reverse).reverse

/-- Decode base64 data (padding already stripped) into bytes; trailing groups of
two or three characters yield one or two bytes, extra bits being discarded. -/
def b64DecBytes : List Char → Option (List Nat)
  | [] => some []
  | [_] => none
  | [c1, c2] =>
    (b64CharVal c1).bind fun w1 => (b64CharVal c2).bind fun w2 =>
    some [w1 * 4 + w2 / 16]
  | [c1, c2, c3] =>
    (b64CharVal c1).bind fun w1 => (b64CharVal c2).bind fun w2 =>
    (b64CharVal c3).bind fun w3 =>
    some [w1 * 4 + w2 / 16, w2 % 16 * 16 + w3 / 4]
  | c1 :: c2 :: c3 :: c4 :: rest =>
    (b64CharVal c1).bind fun w1 => (b64CharVal c2).bind fun w2 =>
    (b64CharVal c3).bind fun w3 => (b64CharVal c4).bind fun w4 =>
    (b64DecBytes rest).map
      (fun bs => (w1 * 4 + w2 / 16) :: (w2 % 16 * 16 + w3 / 4) :: (w3 % 4 * 64 + w4) :: bs)

/-- Model of `atob` (forgiving-base64 decode); `none` models `InvalidCharacterError`. -/
def atob (s : List Char) : Option (List Char) :=
  let t := s.filter (fun c => !(isB64Ws c))
  let t2 := if t.length % 4 = 0 then dropPad t else t
  if t2.length % 4 = 1 then none
  else (b64DecBytes t2).map (fun bs => bs.map Char.ofNat)

/-! ## The credential codec of `src/services/storage.ts`

`encode = (str) => btoa(encodeURIComponent(str))` and
`decode = (str) => { try { return decodeURIComponent(atob(str)); } catch { return str; } }`. -/

/-- Model of `encode` before the (never-failing) `btoa` result is unwrapped. -/
def jsEncode (s : List Char) : Option (List Char) := btoa (encURI s)

/-- Total version of `encode`; the default branch is dead code, since `btoa`
always succeeds on the ASCII output of `encodeURIComponent`. -/
def encodeStr (s : List Char) : List Char := (jsEncode s).getD s

/-- The body of `decode`'s `try` block: `decodeURIComponent(atob(str))`. -/
def jsDecodeAttempt (s : List Char) : Option (List Char) := (atob s).bind decURI

/-- Model of `decode`, including its `catch` branch returning the input unchanged. -/
def decodeStr (s : List Char) : List Char := (jsDecodeAttempt s).getD s

/-! ## The endpoint profile record (`src/types.ts`) -/

/-- The `S3Endpoint` interface: `id`, `name`, `endpoint`, `region`,
`accessKeyId`, `secretAccessKey`, and the optional `forcePathStyle` flag. -/
structure S3Endpoint where
  id : List Char
  name : List Char
  endpoint : List Char
  region : List Char
  accessKeyId : List Char
  secretAccessKey : List Char
  forcePathStyle : Option Bool
deriving DecidableEq

/-! ## Model of `JSON.stringify` / `JSON.parse` for endpoint arrays

The serializer follows `JSON.stringify` exactly (insertion-order keys, the
standard two-character escapes, `u`-escapes for other control characters, an
omitted `forcePathStyle` key when the field is `undefined`).  The parser is
`JSON.parse` specialised to the canonical shape the serializer emits; `none`
models a thrown `SyntaxError`.  (Escaped lone surrogates, which `JSON.parse`
would accept, are rejected, since our `Char` carries only scalar values.) -/

/-- Escaping of one character by `JSON.stringify`. -/
def jsonEscChar (c : Char) : List Char :=
  if c.toNat = 34 then [Char.ofNat 92, Char.ofNat 34]
  else if c.toNat = 92 then [Char.ofNat 92, Char.ofNat 92]
  else if c.toNat = 8 then [Char.ofNat 92, Char.ofNat 98]
  else if c.toNat = 9 then [Char.ofNat 92, Char.ofNat 116]
  else if c.toNat = 10 then [Char.ofNat 92, Char.ofNat 110]
  else if c.toNat = 12 then [Char.ofNat 92, Char.ofNat 102]
  else if c.toNat = 13 then [Char.ofNat 92, Char.ofNat 114]
  else if c.toNat < 32 then
    [Char.ofNat 92, Char.ofNat 117, Char.ofNat 48, Char.ofNat 48,
     hexLower (c.toNat / 16), hexLower (c.toNat % 16)]
  else [c]

/-- A JSON string literal: quote, escaped body, quote. -/
def serStr (s : List Char) : List Char :=
  Char.ofNat 34 :: (s.flatMap jsonEscChar ++ [Char.ofNat 34])

/-- Parse the four hex digits of a `u`-escape into a scalar value. -/
def parseUEsc : List Char → Option (Option Char × List Char)
  | d1 :: d2 :: d3 :: d4 :: r3 =>
    (hexVal d1).bind fun v1 => (hexVal d2).bind fun v2 =>
    (hexVal d3).bind fun v3 => (hexVal d4).bind fun v4 =>
    let v := 4096 * v1 + 256 * v2 + 16 * v3 + v4
    if v < 55296 ∨ 57343 < v then some (some (Char.ofNat v), r3) else none
  | _ => none

/-- Parse one escape sequence after the backslash. -/
def parseEsc : List Char → Option (Option Char × List Char)
  | [] => none
  | e :: r2 =>
    if e.toNat = 34 then some (some (Char.ofNat 34), r2)
    else if e.toNat = 92 then some (some (Char.ofNat 92), r2)
    else if e.toNat = 47 then some (some (Char.ofNat 47), r2)
    else if e.toNat = 98 then some (some (Char.ofNat 8), r2)
    else if e.toNat = 102 then some (some (Char.ofNat 12), r2)
    else if e.toNat = 110 then some (some (Char.ofNat 10), r2)
    else if e.toNat = 114 then some (some (Char.ofNat 13), r2)
    else if e.toNat = 116 then some (some (Char.ofNat 9), r2)
    else if e.toNat = 117 then parseUEsc r2
    else none

/-- Decode one element of a JSON string body: the closing quote (`none`), a
literal character, or an escape sequence. `none` overall models a thrown
`SyntaxError`. -/
def parseStrStep : List Char → Option (Option Char × List Char)
  | [] => none
  | c :: rest =>
    if c.toNat = 34 then some (none, rest)
    else if c.toNat = 92 then parseEsc rest
    else some (some c, rest)

/-- Fuelled driver for the string body; each step consumes at least one
character, so fuel equal to the input length always suffices. -/
def parseStrBodyFuel : Nat → List Char → Option (List Char × List Char)
  | 0, _ => none
  | f + 1, l =>
    (parseStrStep l).bind fun p =>
    match p.1 with
    | none => some ([], p.2)
    | some ch => (parseStrBodyFuel f p.2).map fun q => (ch :: q.1, q.2)

/-- Parse the body of a JSON string literal up to the closing quote. -/
def parseStrBody (l : List Char) : Option (List Char × List Char) :=
  parseStrBodyFuel l.length l

/-- Parse a JSON string literal. -/
def parseStr : List Char → Option (List Char × List Char)
  | c :: r => if c.toNat = 34 then parseStrBody r else none
  | [] => none

/-- Consume one expected character (given by code point). -/
def expectChar (n : Nat) : List Char → Option (List Char)
  | c :: r => if c.toNat = n then some r else none
  | [] => none

def litTrue : List Char := "true".data

def litFalse : List Char := "false".data

/-- A JSON boolean literal. -/
def boolLit : Bool → List Char
  | true => litTrue
  | false => litFalse

/-- Parse a JSON boolean literal. -/
def parseBool (l : List Char) : Option (Bool × List Char) :=
  if litTrue.isPrefixOf l then some (true, l.drop 4)
  else if litFalse.isPrefixOf l then some (false, l.drop 5)
  else none

def keyId : List Char := "id".data

def keyName : List Char := "name".data

def keyEndpoint : List Char := "endpoint".data

def keyRegion : List Char := "region".data

def keyAccessKeyId : List Char := "accessKeyId".data

def keySecretAccessKey : List Char := "secretAccessKey".data

def keyForcePathStyle : List Char := "forcePathStyle".data

/-- One `"key":"value"` pair. -/
def serField (k v : List Char) : List Char := serStr k ++ (Char.ofNat 58 :: serStr v)

/-- The optional trailing `,"forcePathStyle":bool` segment. -/
def serFps : Option Bool → List Char
  | none => []
  | some b => [Char.ofNat 44] ++ serStr keyForcePathStyle ++ [Char.ofNat 58] ++ boolLit b

/-- `JSON.stringify` of one endpoint object, keys in interface order. -/
def serProf (p : S3Endpoint) : List Char :=
  [Char.ofNat 123] ++ serField keyId p.id ++ [Char.ofNat 44] ++
  serField keyName p.name ++ [Char.ofNat 44] ++
  serField keyEndpoint p.endpoint ++ [Char.ofNat 44] ++
  serField keyRegion p.region ++ [Char.ofNat 44] ++
  serField keyAccessKeyId p.accessKeyId ++ [Char.ofNat 44] ++
  serField keySecretAccessKey p.secretAccessKey ++ serFps p.forcePathStyle ++
  [Char.ofNat 125]

/-- Comma-separated endpoint objects. -/
def serProfsInner : List S3Endpoint → List Char
  | [] => []
  | [p] => serProf p
  | p :: q :: ps => serProf p ++ [Char.ofNat 44] ++ serProfsInner (q :: ps)

/-- `JSON.stringify` of an endpoint array. -/
def serProfs (l : List S3Endpoint) : List Char :=
  [Char.ofNat 91] ++ serProfsInner l ++ [Char.ofNat 93]

/-- Parse one `"key":"value"` pair with the given expected key. -/
def parseField (k l : List Char) : Option (List Char × List Char) :=
  (parseStr l).bind fun pk =>
  if pk.1 = k then
    (expectChar 58 pk.2).bind fun r2 =>
    (parseStr r2).bind fun pv => some (pv.1, pv.2)
  else none

/-- Parse a comma-separated sequence of `"key":"value"` pairs with the given
expected keys, returning the values in order. -/
def parseFieldsSeq : List (List Char) → List Char → Option (List (List Char) × List Char)
  | [], l => some ([], l)
  | k :: ks, l =>
    (parseField k l).bind fun p =>
    match ks with
    | [] => some ([p.1], p.2)
    | _ :: _ =>
      (expectChar 44 p.2).bind fun r =>
      (parseFieldsSeq ks r).map fun q => (p.1 :: q.1, q.2)

/-- The six mandatory keys of an endpoint object, in interface order. -/
def profKeys : List (List Char) :=
  [keyId, keyName, keyEndpoint, keyRegion, keyAccessKeyId, keySecretAccessKey]

/-- Parse the optional `forcePathStyle` pair and the closing brace. -/
def parseProfTail (idv nmv epv rgv akv skv : List Char) :
    List Char → Option (S3Endpoint × List Char)
  | c :: r6 =>
    if c.toNat = 125 then
      some (⟨idv, nmv, epv, rgv, akv, skv, none⟩, r6)
    else if c.toNat = 44 then
      (parseStr r6).bind fun pk =>
      if pk.1 = keyForcePathStyle then
        (expectChar 58 pk.2).bind fun r7 =>
        (parseBool r7).bind fun pb =>
        (expectChar 125 pb.2).bind fun r8 =>
        some (⟨idv, nmv, epv, rgv, akv, skv, some pb.1⟩, r8)
      else none
    else none
  | [] => none

/-- Parse one endpoint object of the canonical shape. -/
def parseProf (l : List Char) : Option (S3Endpoint × List Char) :=
  (expectChar 123 l).bind fun r0 =>
  (parseFieldsSeq profKeys r0).bind fun pf =>
  match pf.1 with
  | [idv, nmv, epv, rgv, akv, skv] => parseProfTail idv nmv epv rgv akv skv pf.2
  | _ => none

/-- Fuelled parse of `object ("," object)* "]"`; one profile per fuel unit, so
fuel equal to the remaining input length always suffices. -/
def parseProfsFuel : Nat → List Char → Option (List S3Endpoint × List Char)
  | 0, _ => none
  | f + 1, l =>
    (parseProf l).bind fun pp =>
    match pp.2 with
    | c :: r =>
      if c.toNat = 44 then (parseProfsFuel f r).map (fun q => (pp.1 :: q.1, q.2))
      else if c.toNat = 93 then some ([pp.1], r)
      else none
    | [] => none

/-- Parse a JSON array of endpoint objects. -/
def parseProfs : List Char → Option (List S3Endpoint × List Char)
  | [] => none
  | c :: r =>
    if c.toNat = 91 then
      match r with
      | d :: r2 => if d.toNat = 93 then some ([], r2) else parseProfsFuel r.length r
      | [] => none
    else none

/-- `JSON.parse` of the whole backing record (must consume all input). -/
def parseProfsTop (l : List Char) : Option (List S3Endpoint) :=
  (parseProfs l).bind fun p => match p.2 with | [] => some p.1 | _ => none

/-! ## The endpoint registry of `src/services/storage.ts`

`localStorage` is modelled by the single record under the fixed key
`s3-browser-endpoints`: `none` when absent, `some data` otherwise. -/

/-- The backing record under the `s3-browser-endpoints` key. -/
abbrev Store := Option (List Char)

/-- Apply `encode` to the two secret fields, as `saveEndpoints` does. -/
def encProfile (p : S3Endpoint) : S3Endpoint :=
  { p with accessKeyId := encodeStr p.accessKeyId,
           secretAccessKey := encodeStr p.secretAccessKey }

/-- Apply `decode` to the two secret fields, as `loadEndpoints` does. -/
def decProfile (p : S3Endpoint) : S3Endpoint :=
  { p with accessKeyId := decodeStr p.accessKeyId,
           secretAccessKey := decodeStr p.secretAccessKey }

/-- `saveEndpoints` of `storage.ts`: encode the secret fields of every profile,
serialize, and overwrite the single backing record. -/
def saveEndpoints (endpoints : List S3Endpoint) (_st : Store) : Store :=
  some (serProfs (endpoints.map encProfile))

/-- `loadEndpoints` of `storage.ts`: absent record yields `[]`; a record that
fails to parse yields `[]` (the `catch` branch); otherwise decode each profile's
secret fields. -/
def loadEndpoints (st : Store) : List S3Endpoint :=
  match st with
  | none => []
  | some d =>
    match parseProfsTop d with
    | none => []
    | some eps => eps.map decProfile

/-- `addEndpoint` of `storage.ts`. -/
def addEndpoint (p : S3Endpoint) (st : Store) : Store :=
  saveEndpoints (loadEndpoints st ++ [p]) st

/-- `updateEndpoint` of `storage.ts`: replace the first profile with matching
`name`; when no name matches, nothing is saved. -/
def updateEndpoint (p : S3Endpoint) (st : Store) : Store :=
  let eps := loadEndpoints st
  match eps.findIdx? (fun e => e.name = p.name) with
  | some i => saveEndpoints (eps.set i p) st
  | none => st

/-- `deleteEndpoint` of `storage.ts`: keep the profiles whose `name` differs
from the argument. -/
def deleteEndpoint (name : List Char) (st : Store) : Store :=
  saveEndpoints ((loadEndpoints st).filter (fun e => ¬ e.name = name)) st

/-! ## The endpoint storage of `src/services/s3Service.ts` (no codec) -/

/-- `saveEndpoints` of `s3Service.ts`: serializes the profiles as they are,
without encoding the secret fields. -/
def svcSaveEndpoints (endpoints : List S3Endpoint) (_st : Store) : Store :=
  some (serProfs endpoints)

/-- `loadEndpoints` of `s3Service.ts`: no decoding, `[]` on absence or parse
failure. -/
def svcLoadEndpoints (st : Store) : List S3Endpoint :=
  match st with
  | none => []
  | some d => (parseProfsTop d).getD []

/-! ## The `useS3Browser` hook (`unnamed/part_004`) -/

/-- The hook state relevant to endpoint mutation: the in-memory endpoint list,
the current selection, and the backing record written through
`s3Service.saveEndpoints`. -/
structure BrowserState where
  endpoints : List S3Endpoint
  selectedEndpoint : Option S3Endpoint
  store : Store
deriving DecidableEq

/-- `updateEndpoint` of the hook: map over the list replacing the profile with
matching `id`, save, and refresh the selection if it was the updated profile. -/
def hookUpdateEndpoint (p : S3Endpoint) (st : BrowserState) : BrowserState :=
  let updated := st.endpoints.map (fun e => if e.id = p.id then p else e)
  { endpoints := updated,
    selectedEndpoint :=
      if st.selectedEndpoint.map S3Endpoint.id = some p.id then some p
      else st.selectedEndpoint,
    store := svcSaveEndpoints updated st.store }

/-- `deleteEndpoint` of the hook: filter out the profile with matching `id`,
save, and move the selection to the first remaining profile (or `none`) if the
deleted profile was selected. -/
def hookDeleteEndpoint (endpointId : List Char) (st : BrowserState) : BrowserState :=
  let updated := st.endpoints.filter (fun e => ¬ e.id = endpointId)
  { endpoints := updated,
    selectedEndpoint :=
      if st.selectedEndpoint.map S3Endpoint.id = some endpointId then updated.head?
      else st.selectedEndpoint,
    store := svcSaveEndpoints updated st.store }

/-- Modelled from the spec: the registry module imported by the second
`EndpointManager` variant (a `services/storage` exporting `generateId` and
id-keyed mutation) is not among the source files; per the spec, `remove(id)` is
load-modify-save removing the entry whose stable `id` matches. -/
def specDeleteEndpointById (endpointId : List Char) (st : Store) : Store :=
  saveEndpoints ((loadEndpoints st).filter (fun e => ¬ e.id = endpointId)) st

/-- `handleDelete` of the second `EndpointManager` variant: delete by id,
reload, and if the deleted profile was selected, select the first remaining
profile (or `none`). Returns the new selection and the new store. -/
def emHandleDelete (endpointId : List Char) (selected : Option S3Endpoint)
    (st : Store) : Option S3Endpoint × Store :=
  let st2 := specDeleteEndpointById endpointId st
  let updated := loadEndpoints st2
  (if selected.map S3Endpoint.id = some endpointId then updated.head? else selected, st2)

/-! ## Navigation state (`src/App.tsx`) -/

/-- The decoded location triple. -/
structure NavTriple where
  endpointName : List Char
  bucket : List Char
  path : List Char
deriving DecidableEq

/-- JavaScript `hash.split(\x27/\x27)`. -/
def splitSlash : List Char → List (List Char)
  | [] => [[]]
  | c :: r =>
    if c.toNat = 47 then [] :: splitSlash r
    else
      match splitSlash r with
      | s :: ss => (c :: s) :: ss
      | [] => [[c]]

/-- JavaScript `parts.join(\x27/\x27)`. -/
def joinSlash : List (List Char) → List Char
  | [] => []
  | [s] => s
  | s :: t :: ss => s ++ (Char.ofNat 47 :: joinSlash (t :: ss))

/-- `parseHash` of `App.tsx` on the fragment (without `#`). -/
def parseHash (h : List Char) : NavTriple :=
  if h = [] then ⟨[], [], []⟩
  else
    let parts := splitSlash h
    { endpointName := parts.headD [],
      bucket := if 1 < parts.length then (parts[1]?).getD [] else [],
      path := if 2 < parts.length then joinSlash (parts.drop 2) else [] }

/-- `updateHash` of `App.tsx`: the string assigned to the location fragment. -/
def updateHash (endpointName bucket path : List Char) : List Char :=
  if endpointName = [] then []
  else if bucket = [] then endpointName
  else if path = [] then endpointName ++ (Char.ofNat 47 :: bucket)
  else endpointName ++ (Char.ofNat 47 :: (bucket ++ (Char.ofNat 47 :: path)))

/-- `handleBackToBuckets` of `App.tsx` as a transition on the fragment. -/
def handleBackToBuckets (h : List Char) : List Char :=
  updateHash (parseHash h).endpointName [] []

/-- `handlePathChange` of `App.tsx` as a transition on the fragment. -/
def handlePathChange (path : List Char) (h : List Char) : List Char :=
  updateHash (parseHash h).endpointName (parseHash h).bucket path

/-! ## Navigation state of the drawer variant (`unnamed/part_000`) -/

/-- The selection state of the drawer variant. -/
structure LegacyNavState where
  selectedEndpoint : Option (List Char)
  selectedBucket : Option (List Char)
  currentPath : List Char
  showObjects : Bool
deriving DecidableEq

/-- `handleBackToBuckets` of `unnamed/part_000`. -/
def legacyBackToBuckets (st : LegacyNavState) : LegacyNavState :=
  { st with showObjects := false, selectedBucket := none, currentPath := [] }

/-- `handlePathChange` of `unnamed/part_000`. -/
def legacyPathChange (path : List Char) (st : LegacyNavState) : LegacyNavState :=
  { st with currentPath := path }

/-! ## Object listing (`src/services/s3Client.ts` and `s3Service.ts`) -/

/-- An entry of the SDK `ListObjectsV2` response `Contents`. -/
structure RawObject where
  key : List Char
  size : Nat
deriving DecidableEq

/-- The SDK `ListObjectsV2` response parts the listing logic reads. -/
structure ListResponse where
  contents : List RawObject
  commonPrefixes : List (List Char)
deriving DecidableEq

/-- A listing entry as surfaced by the UI services. -/
structure ObjectInfo where
  key : List Char
  size : Nat
  isFolder : Bool
deriving DecidableEq

/-- The `listObjects` of `s3Client.ts`: filters out the object whose key equals
the requested prefix, then returns folder entries (from `CommonPrefixes`)
followed by the object entries. -/
def s3ClientListObjects (resp : ListResponse) (pfx : List Char) : List ObjectInfo :=
  let objects := (resp.contents.filter (fun o => ¬ o.key = pfx)).map
    (fun o => { key := o.key, size := o.size, isFolder := false : ObjectInfo })
  let folders := resp.commonPrefixes.map
    (fun p => { key := p, size := 0, isFolder := true : ObjectInfo })
  folders ++ objects

/-- The `listObjects` of `s3Service.ts`: returns all of `Contents` as object
entries (no prefix-marker filtering) together with the common prefixes. -/
def s3ServiceListObjects (resp : ListResponse) :
    List ObjectInfo × List (List Char) :=
  (resp.contents.map (fun o => { key := o.key, size := o.size, isFolder := false : ObjectInfo }),
   resp.commonPrefixes)

/-! ## Bulk delete (`src/services/s3Client.ts`) -/

/-- A command sent to the storage gateway. -/
inductive S3Command where
  | deleteObjectsCmd (bucket : List Char) (keys : List (List Char)) (quiet : Bool)
deriving DecidableEq

/-- The commands issued by `deleteObjects` of `s3Client.ts`: the empty key list
returns early and sends nothing; otherwise one quiet `DeleteObjectsCommand`. -/
def deleteObjectsCommands (bucket : List Char) (keys : List (List Char)) :
    List S3Command :=
  if keys = [] then []
  else [S3Command.deleteObjectsCmd bucket keys true]

/-! ## Concrete instances used in counterexamples and witnesses -/

def cexProfileA : S3Endpoint :=
  ⟨"a".data, "n".data, "u".data, "r".data, "k".data, "s".data, none⟩

def cexProfileB : S3Endpoint :=
  ⟨"zzz".data, "n".data, "u2".data, "r2".data, "k2".data, "s2".data, none⟩

def cexProfileC : S3Endpoint :=
  ⟨"x".data, "other".data, "u3".data, "r3".data, "k3".data, "s3".data, none⟩

def cexStore : Store := saveEndpoints [cexProfileA] none

def cexSvcProfile : S3Endpoint :=
  ⟨"c1".data, "m".data, "u".data, "r".data, "AKIA".data, "kk".data, none⟩

def cexProfileH1 : S3Endpoint :=
  ⟨"h1".data, "g".data, "u".data, "r".data, "k".data, "s".data, none⟩

def cexProfileH2 : S3Endpoint :=
  ⟨"h2".data, "g2".data, "u".data, "r".data, "k".data, "s".data, none⟩

def wHookState : BrowserState := ⟨[cexProfileH1, cexProfileH2], some cexProfileH1, none⟩

def cexListResp : ListResponse := ⟨[⟨"photos/".data, 0⟩], []⟩

def wListResp : ListResponse :=
  ⟨[⟨"photos/".data, 0⟩, ⟨"photos/cat.jpg".data, 5⟩], ["photos/sub/".data]⟩

/-! ## Codec lemmas -/

theorem hexVal_hexUpper : ∀ d, d < 16 → hexVal (hexUpper d) = some d := by decide

theorem hexVal_hexLower : ∀ d, d < 16 → hexVal (hexLower d) = some d := by decide

theorem mod16_reassemble (m : Nat) : 16 * (m / 16) + m % 16 = m := by omega

theorem uriUnreserved_toNat {c : Char} (h : uriUnreserved c = true) :
    c.toNat ≤ 255 ∧ c.toNat ≠ 37 := by
  simp only [uriUnreserved, Bool.or_eq_true, Bool.and_eq_true, decide_eq_true_eq,
    beq_iff_eq] at h
  omega

theorem char_valid_toNat (c : Char) :
    c.toNat < 55296 ∨ (57343 < c.toNat ∧ c.toNat < 1114112) := c.valid

/-- Decoding one continuation escape inverts `pctByte` for continuation bytes. -/
theorem decCont_pct (b : Nat) (t : List Char) (hlo : 128 ≤ b) (hhi : b < 192) :
    decCont (pctByte b ++ t) = some (b, t) := by
  simp only [pctByte, List.cons_append, List.nil_append, decCont]
  rw [if_pos (show (Char.ofNat 37).toNat = 37 by decide)]
  rw [hexVal_hexUpper _ (by omega), hexVal_hexUpper _ (by omega)]
  simp only [Option.some_bind]
  rw [mod16_reassemble, if_pos (by omega : 128 ≤ b ∧ b < 192)]

/-- Decoding one step inverts the percent-encoding of a single character,
whatever follows it. -/
theorem decURIStep_encURIChar (c : Char) (t : List Char) :
    decURIStep (encURIChar c ++ t) = some (c, t) := by
  by_cases hu : uriUnreserved c
  · have hc : ¬ c.toNat = 37 := (uriUnreserved_toNat hu).2
    rw [encURIChar, if_pos hu, List.cons_append, List.nil_append]
    simp only [decURIStep]
    rw [if_neg hc]
  · rw [encURIChar, if_neg hu]
    have hval := char_valid_toNat c
    by_cases h1 : c.toNat < 128
    · have hb : utf8Bytes c = [c.toNat] := by simp [utf8Bytes, h1]
      rw [hb]
      simp only [List.flatMap_cons, List.flatMap_nil, List.append_nil, pctByte,
        List.cons_append, List.nil_append]
      simp only [decURIStep]
      rw [if_pos (show (Char.ofNat 37).toNat = 37 by decide)]
      rw [hexVal_hexUpper _ (by omega), hexVal_hexUpper _ (by omega)]
      simp only [Option.some_bind]
      rw [mod16_reassemble]
      rw [if_pos h1, Char.ofNat_toNat]
    · by_cases h2 : c.toNat < 2048
      · have hb : utf8Bytes c = [192 + c.toNat / 64, 128 + c.toNat % 64] := by
          simp [utf8Bytes, h1, h2]
        rw [hb]
        simp only [List.flatMap_cons, List.flatMap_nil, List.append_nil]
        rw [List.append_assoc]
        simp only [pctByte, List.cons_append, List.nil_append]
        simp only [decURIStep]
        rw [if_pos (show (Char.ofNat 37).toNat = 37 by decide)]
        rw [hexVal_hexUpper _ (by omega), hexVal_hexUpper _ (by omega)]
        simp only [Option.some_bind]
        rw [mod16_reassemble]
        rw [if_neg (by omega), if_neg (by omega), if_pos (by omega : 192 + c.toNat / 64 < 224)]
        rw [show (Char.ofNat 37 :: hexUpper ((128 + c.toNat % 64) / 16) ::
          hexUpper ((128 + c.toNat % 64) % 16) :: t) = pctByte (128 + c.toNat % 64) ++ t
          from rfl]
        rw [decCont_pct _ _ (by omega) (by omega)]
        simp only [Option.some_bind]
        have hrec : (192 + c.toNat / 64 - 192) * 64 + (128 + c.toNat % 64 - 128) = c.toNat := by
          omega
        rw [hrec]
        rw [if_pos (by omega : 128 ≤ c.toNat), Char.ofNat_toNat]
      · by_cases h3 : c.toNat < 65536
        · have hb : utf8Bytes c =
              [224 + c.toNat / 4096, 128 + c.toNat / 64 % 64, 128 + c.toNat % 64] := by
            simp [utf8Bytes, h1, h2, h3]
          rw [hb]
          simp only [List.flatMap_cons, List.flatMap_nil, List.append_nil]
          rw [List.append_assoc, List.append_assoc]
          simp only [pctByte, List.cons_append, List.nil_append]
          simp only [decURIStep]
          rw [if_pos (show (Char.ofNat 37).toNat = 37 by decide)]
          rw [hexVal_hexUpper _ (by omega), hexVal_hexUpper _ (by omega)]
          simp only [Option.some_bind]
          rw [mod16_reassemble]
          rw [if_neg (by omega), if_neg (by omega), if_neg (by omega),
            if_pos (by omega : 224 + c.toNat / 4096 < 240)]
          rw [show (Char.ofNat 37 :: hexUpper ((128 + c.toNat / 64 % 64) / 16) ::
            hexUpper ((128 + c.toNat / 64 % 64) % 16) :: (Char.ofNat 37 ::
            hexUpper ((128 + c.toNat % 64) / 16) :: hexUpper ((128 + c.toNat % 64) % 16) :: t))
            = pctByte (128 + c.toNat / 64 % 64) ++ (pctByte (128 + c.toNat % 64) ++ t) from rfl]
          rw [decCont_pct _ _ (by omega) (by omega)]
          simp only [Option.some_bind]
          rw [decCont_pct _ _ (by omega) (by omega)]
          simp only [Option.some_bind]
          have hrec : (224 + c.toNat / 4096 - 224) * 4096 +
              (128 + c.toNat / 64 % 64 - 128) * 64 + (128 + c.toNat % 64 - 128) = c.toNat := by
            omega
          rw [hrec]
          rw [if_pos (by omega : 2048 ≤ c.toNat ∧ (c.toNat < 55296 ∨ 57343 < c.toNat)),
            Char.ofNat_toNat]
        · have hb : utf8Bytes c = [240 + c.toNat / 262144, 128 + c.toNat / 4096 % 64,
              128 + c.toNat / 64 % 64, 128 + c.toNat % 64] := by
            simp [utf8Bytes, h1, h2, h3]
          have h4 : c.toNat < 1114112 := by omega
          rw [hb]
          simp only [List.flatMap_cons, List.flatMap_nil, List.append_nil]
          rw [List.append_assoc, List.append_assoc, List.append_assoc]
          simp only [pctByte, List.cons_append, List.nil_append]
          simp only [decURIStep]
          rw [if_pos (show (Char.ofNat 37).toNat = 37 by decide)]
          rw [hexVal_hexUpper _ (by omega), hexVal_hexUpper _ (by omega)]
          simp only [Option.some_bind]
          rw [mod16_reassemble]
          rw [if_neg (by omega), if_neg (by omega), if_neg (by omega), if_neg (by omega),
            if_pos (by omega : 240 + c.toNat / 262144 < 248)]
          rw [show (Char.ofNat 37 :: hexUpper ((128 + c.toNat / 4096 % 64) / 16) ::
            hexUpper ((128 + c.toNat / 4096 % 64) % 16) :: (Char.ofNat 37 ::
            hexUpper ((128 + c.toNat / 64 % 64) / 16) ::
            hexUpper ((128 + c.toNat / 64 % 64) % 16) :: (Char.ofNat 37 ::
            hexUpper ((128 + c.toNat % 64) / 16) :: hexUpper ((128 + c.toNat % 64) % 16) :: t)))
            = pctByte (128 + c.toNat / 4096 % 64) ++ (pctByte (128 + c.toNat / 64 % 64) ++
              (pctByte (128 + c.toNat % 64) ++ t)) from rfl]
          rw [decCont_pct _ _ (by omega) (by omega)]
          simp only [Option.some_bind]
          rw [decCont_pct _ _ (by omega) (by omega)]
          simp only [Option.some_bind]
          rw [decCont_pct _ _ (by omega) (by omega)]
          simp only [Option.some_bind]
          have hrec : (240 + c.toNat / 262144 - 240) * 262144 +
              (128 + c.toNat / 4096 % 64 - 128) * 4096 +
              (128 + c.toNat / 64 % 64 - 128) * 64 + (128 + c.toNat % 64 - 128) = c.toNat := by
            omega
          rw [hrec]
          rw [if_pos (by omega : 65536 ≤ c.toNat ∧ c.toNat < 1114112), Char.ofNat_toNat]

/-- A continuation parse consumes exactly three characters. -/
theorem decCont_length {r : List Char} {p : Nat × List Char} (h : decCont r = some p) :
    p.2.length + 3 = r.length := by
  match r with
  | [] => simp [decCont] at h
  | [c1] => simp [decCont] at h
  | [c1, c2] => simp [decCont] at h
  | c1 :: c2 :: c3 :: r2 =>
    simp only [decCont] at h
    split_ifs at h
    simp only [Option.bind_eq_some] at h
    obtain ⟨x, hx, y, hy, h⟩ := h
    split_ifs at h
    cases h
    simp [List.length_cons]

set_option maxRecDepth 8192 in
/-- One decoding step consumes at least one character. -/
theorem decURIStep_length {l : List Char} {p : Char × List Char}
    (h : decURIStep l = some p) : p.2.length < l.length := by
  match l with
  | [] => simp [decURIStep] at h
  | c0 :: r0 =>
    by_cases h37 : c0.toNat = 37
    · match r0 with
      | [] => simp [decURIStep, h37] at h
      | [c1] => simp [decURIStep, h37] at h
      | h1 :: h2 :: r1 =>
        simp only [decURIStep, h37, if_true, Option.bind_eq_some] at h
        obtain ⟨x1, hx1, y1, hy1, h⟩ := h
        split_ifs at h with hb1 hb2 hb3 hb4 hb5
        · cases h
          simp only [List.length_cons]
          omega
        · simp only [Option.bind_eq_some] at h
          obtain ⟨p2, hp2, h⟩ := h
          have hl2 := decCont_length hp2
          split_ifs at h
          cases h
          simp only [List.length_cons]
          omega
        · simp only [Option.bind_eq_some] at h
          obtain ⟨p2, hp2, h⟩ := h
          obtain ⟨p3, hp3, h⟩ := h
          have hl2 := decCont_length hp2
          have hl3 := decCont_length hp3
          split_ifs at h
          cases h
          simp only [List.length_cons]
          omega
        · simp only [Option.bind_eq_some] at h
          obtain ⟨p2, hp2, h⟩ := h
          obtain ⟨p3, hp3, h⟩ := h
          obtain ⟨p4, hp4, h⟩ := h
          have hl2 := decCont_length hp2
          have hl3 := decCont_length hp3
          have hl4 := decCont_length hp4
          split_ifs at h
          cases h
          simp only [List.length_cons]
          omega
    · simp only [decURIStep, if_neg h37] at h
      cases h
      simp

/-- Unfolding lemma for `decURIFuel` at a successor fuel on nonempty input. -/
theorem decURIFuel_succ (f : Nat) (l : List Char) (h : l ≠ []) :
    decURIFuel (f + 1) l =
      (decURIStep l).bind fun p => (decURIFuel f p.2).map (p.1 :: ·) := by
  match l with
  | [] => exact absurd rfl h
  | c :: r => rfl

/-- The fuel argument is irrelevant once it reaches the input length. -/
theorem decURIFuel_eq {f g : Nat} : ∀ {l : List Char}, l.length ≤ f → l.length ≤ g →
    decURIFuel f l = decURIFuel g l := by
  induction f generalizing g with
  | zero =>
    intro l hf _
    have : l = [] := List.length_eq_zero.mp (Nat.le_zero.mp hf)
    subst this
    cases g <;> rfl
  | succ f ih =>
    intro l hf hg
    match l with
    | [] => cases g <;> rfl
    | c :: r =>
      match g with
      | 0 => simp at hg
      | g + 1 =>
        rw [decURIFuel_succ f _ (by simp), decURIFuel_succ g _ (by simp)]
        match hs : decURIStep (c :: r) with
        | none => rfl
        | some p =>
          simp only [Option.some_bind]
          have hlen := decURIStep_length hs
          simp only [List.length_cons] at hlen hf hg
          rw [@ih g p.2 (by omega) (by omega)]

/-- Each character's encoding is nonempty. -/
theorem encURIChar_length_pos (c : Char) : 1 ≤ (encURIChar c).length := by
  by_cases hu : uriUnreserved c
  · simp [encURIChar, hu]
  · rw [encURIChar, if_neg hu]
    by_cases h1 : c.toNat < 128
    · simp [utf8Bytes, h1, pctByte]
    · by_cases h2 : c.toNat < 2048
      · simp [utf8Bytes, h1, h2, pctByte]
      · by_cases h3 : c.toNat < 65536
        · simp [utf8Bytes, h1, h2, h3, pctByte]
        · simp [utf8Bytes, h1, h2, h3, pctByte]

/-- Decoding inverts percent-encoding, for any sufficient fuel. -/
theorem decURIFuel_encURI : ∀ (s : List Char) (f : Nat), (encURI s).length ≤ f →
    decURIFuel f (encURI s) = some s := by
  intro s
  induction s with
  | nil => intro f _; cases f <;> rfl
  | cons c cs ih =>
    intro f hf
    rw [encURI] at hf ⊢
    have hcl := encURIChar_length_pos c
    have hne : encURIChar c ++ encURI cs ≠ [] := by
      intro hnil
      rw [List.append_eq_nil] at hnil
      rw [hnil.1] at hcl
      simp at hcl
    rw [List.length_append] at hf
    match f with
    | 0 => omega
    | f + 1 =>
      rw [decURIFuel_succ f _ hne, decURIStep_encURIChar]
      simp only [Option.some_bind]
      rw [ih f (by omega)]
      rfl

/-- Decoding inverts percent-encoding on whole strings. -/
theorem decURI_encURI (s : List Char) : decURI (encURI s) = some s :=
  decURIFuel_encURI s (encURI s).length (Nat.le_refl _)

/-! ## Base64 lemmas -/

theorem b64CharVal_b64Char : ∀ n, n < 64 → b64CharVal (b64Char n) = some n := by decide

theorem b64Char_not_ws : ∀ n, n < 64 → isB64Ws (b64Char n) = false := by decide

theorem b64Char_ne_pad : ∀ n, n < 64 → (b64Char n).toNat ≠ 61 := by decide

theorem hexUpper_le : ∀ d, d < 16 → (hexUpper d).toNat ≤ 255 := by decide

/-- UTF-8 byte values stay in byte range. -/
theorem utf8Bytes_le {c : Char} : ∀ b ∈ utf8Bytes c, b ≤ 255 := by
  intro b hb
  have hval := char_valid_toNat c
  by_cases h1 : c.toNat < 128
  · have he : utf8Bytes c = [c.toNat] := by simp [utf8Bytes, h1]
    rw [he] at hb
    simp at hb
    omega
  · by_cases h2 : c.toNat < 2048
    · have he : utf8Bytes c = [192 + c.toNat / 64, 128 + c.toNat % 64] := by
        simp [utf8Bytes, h1, h2]
      rw [he] at hb
      simp at hb
      omega
    · by_cases h3 : c.toNat < 65536
      · have he : utf8Bytes c =
            [224 + c.toNat / 4096, 128 + c.toNat / 64 % 64, 128 + c.toNat % 64] := by
          simp [utf8Bytes, h1, h2, h3]
        rw [he] at hb
        simp at hb
        omega
      · have he : utf8Bytes c = [240 + c.toNat / 262144, 128 + c.toNat / 4096 % 64,
            128 + c.toNat / 64 % 64, 128 + c.toNat % 64] := by
          simp [utf8Bytes, h1, h2, h3]
        rw [he] at hb
        simp at hb
        omega

/-- Every character of a percent-encoded character is a Latin-1 (in fact ASCII)
character, so `btoa` accepts it. -/
theorem encURIChar_ascii {c : Char} : ∀ x ∈ encURIChar c, x.toNat ≤ 255 := by
  intro x hx
  by_cases hu : uriUnreserved c
  · rw [encURIChar, if_pos hu] at hx
    simp at hx
    subst hx
    exact (uriUnreserved_toNat hu).1
  · rw [encURIChar, if_neg hu] at hx
    rw [List.mem_flatMap] at hx
    obtain ⟨b, hb, hx⟩ := hx
    have hble := utf8Bytes_le b hb
    rw [pctByte] at hx
    simp at hx
    rcases hx with hx | hx | hx
    · subst hx; decide
    · subst hx; exact hexUpper_le _ (by omega)
    · subst hx; exact hexUpper_le _ (by omega)

theorem encURI_ascii {s : List Char} : ∀ x ∈ encURI s, x.toNat ≤ 255 := by
  induction s with
  | nil => intro x hx; simp [encURI] at hx
  | cons c cs ih =>
    intro x hx
    rw [encURI, List.mem_append] at hx
    rcases hx with hx | hx
    · exact encURIChar_ascii x hx
    · exact ih x hx

/-- Base64 output length is a multiple of four. -/
theorem b64EncBytes_len_mod : ∀ bs : List Nat, (b64EncBytes bs).length % 4 = 0
  | [] => by simp [b64EncBytes]
  | [a] => by simp [b64EncBytes]
  | [a, b] => by simp [b64EncBytes]
  | a :: b :: c :: rest => by
    have ih := b64EncBytes_len_mod rest
    simp only [b64EncBytes, List.length_cons]
    omega

/-- Base64 output never contains whitespace. -/
theorem b64EncBytes_not_ws : ∀ bs : List Nat, (∀ b ∈ bs, b ≤ 255) →
    ∀ x ∈ b64EncBytes bs, isB64Ws x = false
  | [], _ => by simp [b64EncBytes]
  | [a], h => by
    have ha : a ≤ 255 := h a (by simp)
    intro x hx
    simp only [b64EncBytes] at hx
    simp at hx
    rcases hx with hx | hx | hx
    · subst hx; exact b64Char_not_ws _ (by omega)
    · subst hx; exact b64Char_not_ws _ (by omega)
    · subst hx; decide
  | [a, b], h => by
    have ha : a ≤ 255 := h a (by simp)
    have hb : b ≤ 255 := h b (by simp)
    intro x hx
    simp only [b64EncBytes] at hx
    simp at hx
    rcases hx with hx | hx | hx | hx
    · subst hx; exact b64Char_not_ws _ (by omega)
    · subst hx; exact b64Char_not_ws _ (by omega)
    · subst hx; exact b64Char_not_ws _ (by omega)
    · subst hx; decide
  | a :: b :: c :: rest, h => by
    have ha : a ≤ 255 := h a (by simp)
    have hb : b ≤ 255 := h b (by simp)
    have hc : c ≤ 255 := h c (by simp)
    have ih := b64EncBytes_not_ws rest (fun x hx => h x (by simp [hx]))
    intro x hx
    simp only [b64EncBytes, List.mem_cons] at hx
    rcases hx with hx | hx | hx | hx | hx
    · subst hx; exact b64Char_not_ws _ (by omega)
    · subst hx; exact b64Char_not_ws _ (by omega)
    · subst hx; exact b64Char_not_ws _ (by omega)
    · subst hx; exact b64Char_not_ws _ (by omega)
    · exact ih x hx

/-- Nonempty input yields at least one base64 group. -/
theorem b64EncBytes_min_len : ∀ bs : List Nat, bs ≠ [] → 4 ≤ (b64EncBytes bs).length
  | [], h => absurd rfl h
  | [a], _ => by simp [b64EncBytes]
  | [a, b], _ => by simp [b64EncBytes]
  | a :: b :: c :: rest, _ => by simp [b64EncBytes]

theorem dropPadRev_append {l : List Char} (zs : List Char) (h : 2 ≤ l.length) :
    dropPadRev (l ++ zs) = dropPadRev l ++ zs := by
  match l with
  | [] => simp at h
  | [c1] => simp at h
  | c1 :: c2 :: r =>
    show dropPadRev (c1 :: c2 :: (r ++ zs)) = dropPadRev (c1 :: c2 :: r) ++ zs
    simp only [dropPadRev]
    split_ifs <;> simp

theorem dropPad_append (xs ys : List Char) (h : 2 ≤ ys.length) :
    dropPad (xs ++ ys) = xs ++ dropPad ys := by
  rw [dropPad, dropPad, List.reverse_append,
    dropPadRev_append _ (by simpa using h), List.reverse_append, List.reverse_reverse]

theorem dropPad_pad2 (t1 t2 : Char) :
    dropPad [t1, t2, Char.ofNat 61, Char.ofNat 61] = [t1, t2] := by
  simp [dropPad, dropPadRev, show (Char.ofNat 61).toNat = 61 from by decide]

theorem dropPad_pad1 (t1 t2 t3 : Char) (h : t3.toNat ≠ 61) :
    dropPad [t1, t2, t3, Char.ofNat 61] = [t1, t2, t3] := by
  simp [dropPad, dropPadRev, show (Char.ofNat 61).toNat = 61 from by decide, h]

theorem dropPad_pad0 (t1 t2 t3 t4 : Char) (h : t4.toNat ≠ 61) :
    dropPad [t1, t2, t3, t4] = [t1, t2, t3, t4] := by
  simp [dropPad, dropPadRev, h]

/-- Decoding inverts base64 encoding after the padding is stripped. -/
theorem b64_dec_enc : ∀ bs : List Nat, (∀ b ∈ bs, b ≤ 255) →
    b64DecBytes (dropPad (b64EncBytes bs)) = some bs
  | [], _ => by simp [b64EncBytes, dropPad, dropPadRev, b64DecBytes]
  | [a], h => by
    have ha : a ≤ 255 := h a (by simp)
    simp only [b64EncBytes]
    rw [dropPad_pad2]
    simp only [b64DecBytes]
    rw [b64CharVal_b64Char _ (by omega), b64CharVal_b64Char _ (by omega)]
    simp only [Option.some_bind]
    have : a / 4 * 4 + a % 4 * 16 / 16 = a := by omega
    rw [this]
  | [a, b], h => by
    have ha : a ≤ 255 := h a (by simp)
    have hb : b ≤ 255 := h b (by simp)
    simp only [b64EncBytes]
    rw [dropPad_pad1 _ _ _ (b64Char_ne_pad _ (by omega))]
    simp only [b64DecBytes]
    rw [b64CharVal_b64Char _ (by omega), b64CharVal_b64Char _ (by omega),
      b64CharVal_b64Char _ (by omega)]
    simp only [Option.some_bind]
    have e1 : a / 4 * 4 + (a % 4 * 16 + b / 16) / 16 = a := by omega
    have e2 : (a % 4 * 16 + b / 16) % 16 * 16 + b % 16 * 4 / 4 = b := by omega
    rw [e1, e2]
  | a :: b :: c :: rest, h => by
    have ha : a ≤ 255 := h a (by simp)
    have hb : b ≤ 255 := h b (by simp)
    have hc : c ≤ 255 := h c (by simp)
    have hrest : ∀ x ∈ rest, x ≤ 255 := fun x hx => h x (by simp [hx])
    have ih := b64_dec_enc rest hrest
    have e1 : a / 4 * 4 + (a % 4 * 16 + b / 16) / 16 = a := by omega
    have e2 : (a % 4 * 16 + b / 16) % 16 * 16 + (b % 16 * 4 + c / 64) / 4 = b := by omega
    have e3 : (b % 16 * 4 + c / 64) % 4 * 64 + c % 64 = c := by omega
    match hrn : rest with
    | [] =>
      simp only [b64EncBytes]
      rw [dropPad_pad0 _ _ _ _ (b64Char_ne_pad _ (by omega))]
      simp only [b64DecBytes]
      rw [b64CharVal_b64Char _ (by omega), b64CharVal_b64Char _ (by omega),
        b64CharVal_b64Char _ (by omega), b64CharVal_b64Char _ (by omega)]
      simp only [Option.some_bind, Option.map_some]
      rw [e1, e2, e3]
      rfl
    | d :: ds =>
      simp only [b64EncBytes]
      rw [show (b64Char (a / 4) :: b64Char (a % 4 * 16 + b / 16) ::
        b64Char (b % 16 * 4 + c / 64) :: b64Char (c % 64) :: b64EncBytes (d :: ds)) =
        [b64Char (a / 4), b64Char (a % 4 * 16 + b / 16), b64Char (b % 16 * 4 + c / 64),
          b64Char (c % 64)] ++ b64EncBytes (d :: ds) from rfl]
      rw [dropPad_append _ _ (by have := b64EncBytes_min_len (d :: ds) (by simp); omega)]
      rw [List.cons_append, List.cons_append, List.cons_append, List.cons_append,
        List.nil_append]
      simp only [b64DecBytes]
      rw [b64CharVal_b64Char _ (by omega), b64CharVal_b64Char _ (by omega),
        b64CharVal_b64Char _ (by omega), b64CharVal_b64Char _ (by omega)]
      simp only [Option.some_bind]
      rw [ih]
      simp only [Option.map_some, Option.map_some']
      rw [e1, e2, e3]

/-- A successful base64 decode implies the input length is not `1 mod 4`. -/
theorem b64DecBytes_mod : ∀ {l : List Char} {bs : List Nat},
    b64DecBytes l = some bs → l.length % 4 ≠ 1
  | [], _, _ => by simp only [List.length_nil]; omega
  | [c1], bs, h => by simp [b64DecBytes] at h
  | [c1, c2], _, _ => by simp only [List.length_cons, List.length_nil]; omega
  | [c1, c2, c3], _, _ => by simp only [List.length_cons, List.length_nil]; omega
  | c1 :: c2 :: c3 :: c4 :: rest, bs, h => by
    simp only [b64DecBytes, Option.bind_eq_some] at h
    obtain ⟨w1, hw1, w2, hw2, w3, hw3, w4, hw4, h⟩ := h
    rw [Option.map_eq_some'] at h
    obtain ⟨bs2, hbs2, _⟩ := h
    have ih := b64DecBytes_mod hbs2
    simp only [List.length_cons]
    omega

/-- `atob` inverts `btoa`-style base64 encoding of byte values. -/
theorem atob_b64EncBytes (bs : List Nat) (h : ∀ b ∈ bs, b ≤ 255) :
    atob (b64EncBytes bs) = some (bs.map Char.ofNat) := by
  rw [atob]
  have hfilter : (b64EncBytes bs).filter (fun c => !(isB64Ws c)) = b64EncBytes bs := by
    rw [List.filter_eq_self]
    intro x hx
    rw [b64EncBytes_not_ws bs h x hx]
    rfl
  rw [hfilter]
  rw [if_pos (b64EncBytes_len_mod bs)]
  have hdec := b64_dec_enc bs h
  have hmod := b64DecBytes_mod hdec
  rw [if_neg hmod, hdec]
  rfl

/-! ## Codec round trip -/

/-- `encode` always succeeds: its `encodeURIComponent` output is ASCII. -/
theorem jsEncode_eq (s : List Char) :
    jsEncode s = some (b64EncBytes ((encURI s).map Char.toNat)) := by
  rw [jsEncode, btoa, if_pos]
  rw [List.all_eq_true]
  intro x hx
  simpa using encURI_ascii x hx

/-- Round trip of the credential codec: `decode (encode s) = s`. -/
theorem decodeStr_encodeStr (s : List Char) : decodeStr (encodeStr s) = s := by
  have henc : encodeStr s = b64EncBytes ((encURI s).map Char.toNat) := by
    rw [encodeStr, jsEncode_eq]
    rfl
  have hbytes : ∀ b ∈ (encURI s).map Char.toNat, b ≤ 255 := by
    intro b hb
    rw [List.mem_map] at hb
    obtain ⟨x, hx, rfl⟩ := hb
    exact encURI_ascii x hx
  rw [henc, decodeStr, jsDecodeAttempt, atob_b64EncBytes _ hbytes]
  simp only [Option.some_bind]
  rw [List.map_map, show Char.ofNat ∘ Char.toNat = id from funext Char.ofNat_toNat,
    List.map_id, decURI_encURI]
  rfl

/-! ## JSON round-trip lemmas -/

theorem expectChar_cons (n : Nat) (c : Char) (t : List Char) (h : c.toNat = n) :
    expectChar n (c :: t) = some t := by
  simp [expectChar, h]

theorem jsonEscChar_length_pos (c : Char) : 1 ≤ (jsonEscChar c).length := by
  simp only [jsonEscChar]
  split_ifs <;> simp

theorem parseStrStep_quote (t : List Char) :
    parseStrStep (Char.ofNat 34 :: t) = some (none, t) := by
  simp only [parseStrStep]
  rw [if_pos (by decide)]

/-- One parsing step undoes the `JSON.stringify` escaping of one character. -/
theorem parseStrStep_esc (c : Char) (t : List Char) :
    parseStrStep (jsonEscChar c ++ t) = some (some c, t) := by
  by_cases h34 : c.toNat = 34
  · have hc : Char.ofNat 34 = c := by rw [← h34, Char.ofNat_toNat]
    have he : jsonEscChar c = [Char.ofNat 92, Char.ofNat 34] := by simp [jsonEscChar, h34]
    rw [he, List.cons_append, List.cons_append, List.nil_append]
    simp only [parseStrStep]
    rw [if_neg (by decide), if_pos (by decide)]
    simp only [parseEsc]
    rw [if_pos (by decide), hc]
  · by_cases h92 : c.toNat = 92
    · have hc : Char.ofNat 92 = c := by rw [← h92, Char.ofNat_toNat]
      have he : jsonEscChar c = [Char.ofNat 92, Char.ofNat 92] := by
        simp [jsonEscChar, h34, h92]
      rw [he, List.cons_append, List.cons_append, List.nil_append]
      simp only [parseStrStep]
      rw [if_neg (by decide), if_pos (by decide)]
      simp only [parseEsc]
      rw [if_neg (by decide), if_pos (by decide), hc]
    · by_cases h8 : c.toNat = 8
      · have hc : Char.ofNat 8 = c := by rw [← h8, Char.ofNat_toNat]
        have he : jsonEscChar c = [Char.ofNat 92, Char.ofNat 98] := by
          simp [jsonEscChar, h34, h92, h8]
        rw [he, List.cons_append, List.cons_append, List.nil_append]
        simp only [parseStrStep]
        rw [if_neg (by decide), if_pos (by decide)]
        simp only [parseEsc]
        rw [if_neg (by decide), if_neg (by decide), if_neg (by decide), if_pos (by decide),
          hc]
      · by_cases h9 : c.toNat = 9
        · have hc : Char.ofNat 9 = c := by rw [← h9, Char.ofNat_toNat]
          have he : jsonEscChar c = [Char.ofNat 92, Char.ofNat 116] := by
            simp [jsonEscChar, h34, h92, h8, h9]
          rw [he, List.cons_append, List.cons_append, List.nil_append]
          simp only [parseStrStep]
          rw [if_neg (by decide), if_pos (by decide)]
          simp only [parseEsc]
          rw [if_neg (by decide), if_neg (by decide), if_neg (by decide), if_neg (by decide),
            if_neg (by decide), if_neg (by decide), if_neg (by decide), if_pos (by decide),
            hc]
        · by_cases h10 : c.toNat = 10
          · have hc : Char.ofNat 10 = c := by rw [← h10, Char.ofNat_toNat]
            have he : jsonEscChar c = [Char.ofNat 92, Char.ofNat 110] := by
              simp [jsonEscChar, h34, h92, h8, h9, h10]
            rw [he, List.cons_append, List.cons_append, List.nil_append]
            simp only [parseStrStep]
            rw [if_neg (by decide), if_pos (by decide)]
            simp only [parseEsc]
            rw [if_neg (by decide), if_neg (by decide), if_neg (by decide),
              if_neg (by decide), if_neg (by decide), if_pos (by decide), hc]
          · by_cases h12 : c.toNat = 12
            · have hc : Char.ofNat 12 = c := by rw [← h12, Char.ofNat_toNat]
              have he : jsonEscChar c = [Char.ofNat 92, Char.ofNat 102] := by
                simp [jsonEscChar, h34, h92, h8, h9, h10, h12]
              rw [he, List.cons_append, List.cons_append, List.nil_append]
              simp only [parseStrStep]
              rw [if_neg (by decide), if_pos (by decide)]
              simp only [parseEsc]
              rw [if_neg (by decide), if_neg (by decide), if_neg (by decide),
                if_neg (by decide), if_pos (by decide), hc]
            · by_cases h13 : c.toNat = 13
              · have hc : Char.ofNat 13 = c := by rw [← h13, Char.ofNat_toNat]
                have he : jsonEscChar c = [Char.ofNat 92, Char.ofNat 114] := by
                  simp [jsonEscChar, h34, h92, h8, h9, h10, h12, h13]
                rw [he, List.cons_append, List.cons_append, List.nil_append]
                simp only [parseStrStep]
                rw [if_neg (by decide), if_pos (by decide)]
                simp only [parseEsc]
                rw [if_neg (by decide), if_neg (by decide), if_neg (by decide),
                  if_neg (by decide), if_neg (by decide), if_neg (by decide),
                  if_pos (by decide), hc]
              · by_cases hctl : c.toNat < 32
                · have he : jsonEscChar c = [Char.ofNat 92, Char.ofNat 117, Char.ofNat 48,
                      Char.ofNat 48, hexLower (c.toNat / 16), hexLower (c.toNat % 16)] := by
                    simp [jsonEscChar, h34, h92, h8, h9, h10, h12, h13, hctl]
                  rw [he]
                  simp only [List.cons_append, List.nil_append]
                  simp only [parseStrStep]
                  rw [if_neg (by decide), if_pos (by decide)]
                  simp only [parseEsc]
                  rw [if_neg (by decide), if_neg (by decide), if_neg (by decide),
                    if_neg (by decide), if_neg (by decide), if_neg (by decide),
                    if_neg (by decide), if_neg (by decide), if_pos (by decide)]
                  simp only [parseUEsc]
                  rw [show hexVal (Char.ofNat 48) = some 0 from by decide]
                  rw [hexVal_hexLower _ (by omega), hexVal_hexLower _ (by omega)]
                  simp only [Option.some_bind]
                  rw [show 4096 * 0 + 256 * 0 + 16 * (c.toNat / 16) + c.toNat % 16 = c.toNat
                    from by omega]
                  rw [if_pos (Or.inl (by omega)), Char.ofNat_toNat]
                · have he : jsonEscChar c = [c] := by
                    simp [jsonEscChar, h34, h92, h8, h9, h10, h12, h13, hctl]
                  rw [he, List.cons_append, List.nil_append]
                  simp only [parseStrStep]
                  rw [if_neg h34, if_neg h92]

theorem parseUEsc_length {r : List Char} {p : Option Char × List Char}
    (h : parseUEsc r = some p) : p.2.length + 4 = r.length := by
  match r with
  | [] => simp [parseUEsc] at h
  | [d1] => simp [parseUEsc] at h
  | [d1, d2] => simp [parseUEsc] at h
  | [d1, d2, d3] => simp [parseUEsc] at h
  | d1 :: d2 :: d3 :: d4 :: r3 =>
    simp only [parseUEsc, Option.bind_eq_some] at h
    obtain ⟨v1, hv1, v2, hv2, v3, hv3, v4, hv4, h⟩ := h
    split_ifs at h
    cases h
    simp [List.length_cons]

theorem parseEsc_length {r : List Char} {p : Option Char × List Char}
    (h : parseEsc r = some p) : p.2.length < r.length := by
  match r with
  | [] => simp [parseEsc] at h
  | e :: r2 =>
    simp only [parseEsc] at h
    split_ifs at h
    · cases h; simp
    · cases h; simp
    · cases h; simp
    · cases h; simp
    · cases h; simp
    · cases h; simp
    · cases h; simp
    · cases h; simp
    · have := parseUEsc_length h
      simp only [List.length_cons]
      omega

/-- One string-body step consumes at least one character. -/
theorem parseStrStep_length {l : List Char} {p : Option Char × List Char}
    (h : parseStrStep l = some p) : p.2.length < l.length := by
  match l with
  | [] => simp [parseStrStep] at h
  | c :: rest =>
    simp only [parseStrStep] at h
    split_ifs at h
    · cases h; simp
    · have := parseEsc_length h
      simp only [List.length_cons]
      omega
    · cases h; simp

/-- Fuel is irrelevant once it reaches the input length. -/
theorem parseStrBodyFuel_eq {f g : Nat} : ∀ {l : List Char}, l.length ≤ f →
    l.length ≤ g → parseStrBodyFuel f l = parseStrBodyFuel g l := by
  induction f generalizing g with
  | zero =>
    intro l hf _
    have : l = [] := List.length_eq_zero.mp (Nat.le_zero.mp hf)
    subst this
    match g with
    | 0 => rfl
    | g + 1 =>
      simp only [parseStrBodyFuel]
      rfl
  | succ f ih =>
    intro l hf hg
    match l with
    | [] =>
      match g with
      | 0 => rfl
      | g + 1 => rfl
    | c :: r =>
      match g with
      | 0 => simp at hg
      | g + 1 =>
        simp only [parseStrBodyFuel]
        match hs : parseStrStep (c :: r) with
        | none => rfl
        | some p =>
          simp only [Option.some_bind]
          have hlen := parseStrStep_length hs
          simp only [List.length_cons] at hlen hf hg
          match p with
          | (none, r2) => rfl
          | (some ch, r2) =>
            simp only []
            rw [@ih g r2 (by simp at hlen; omega) (by simp at hlen; omega)]

/-- The fuelled body parse inverts serialization, given enough fuel. -/
theorem parseStrBodyFuel_ser : ∀ (s : List Char) (f : Nat) (t : List Char),
    (s.flatMap jsonEscChar).length < f →
    parseStrBodyFuel f (s.flatMap jsonEscChar ++ (Char.ofNat 34 :: t)) = some (s, t)
  | [], f, t, hf => by
    match f, hf with
    | f + 1, _ =>
      rw [List.flatMap_nil, List.nil_append]
      simp only [parseStrBodyFuel]
      rw [parseStrStep_quote]
      rfl
  | c :: cs, f, t, hf => by
    have hlen := jsonEscChar_length_pos c
    rw [List.flatMap_cons, List.length_append] at hf
    rw [List.flatMap_cons, List.append_assoc]
    match f, hf with
    | f + 1, _ =>
      simp only [parseStrBodyFuel]
      rw [parseStrStep_esc]
      simp only [Option.some_bind]
      rw [parseStrBodyFuel_ser cs f t (by omega)]
      rfl

/-- Parsing inverts the serialization of a string body. -/
theorem parseStrBody_ser (s t : List Char) :
    parseStrBody (s.flatMap jsonEscChar ++ (Char.ofNat 34 :: t)) = some (s, t) := by
  rw [parseStrBody]
  apply parseStrBodyFuel_ser
  simp only [List.length_append, List.length_cons]
  omega

/-- Parsing inverts the serialization of a JSON string literal. -/
theorem parseStr_ser (s t : List Char) : parseStr (serStr s ++ t) = some (s, t) := by
  rw [show serStr s ++ t = Char.ofNat 34 :: (s.flatMap jsonEscChar ++ (Char.ofNat 34 :: t))
    from by simp [serStr]]
  simp only [parseStr]
  rw [if_pos (by decide), parseStrBody_ser]

/-- Parsing inverts the serialization of one field. -/
theorem parseField_ser (k v t : List Char) :
    parseField k (serField k v ++ t) = some (v, t) := by
  rw [show serField k v ++ t = serStr k ++ (Char.ofNat 58 :: (serStr v ++ t))
    from by simp [serField]]
  simp only [parseField]
  rw [parseStr_ser]
  simp only [Option.some_bind]
  rw [if_pos trivial, expectChar_cons _ _ _ (by decide)]
  simp only [Option.some_bind]
  rw [parseStr_ser]
  rfl

theorem isPrefixOf_append (w t : List Char) : w.isPrefixOf (w ++ t) = true := by
  induction w with
  | nil => simp [List.isPrefixOf]
  | cons a as ih => simp [List.isPrefixOf, ih]

/-- Parsing inverts the boolean literal. -/
theorem parseBool_boolLit (b : Bool) (t : List Char) :
    parseBool (boolLit b ++ t) = some (b, t) := by
  cases b
  · rw [boolLit, parseBool]
    rw [show litTrue.isPrefixOf (litFalse ++ t) = false from rfl]
    rw [if_neg (by simp)]
    rw [if_pos (isPrefixOf_append litFalse t)]
    rw [show (litFalse ++ t).drop 5 = t from by
      rw [show (5 : Nat) = litFalse.length from rfl, List.drop_left]]
  · rw [boolLit, parseBool]
    rw [if_pos (isPrefixOf_append litTrue t)]
    rw [show (litTrue ++ t).drop 4 = t from by
      rw [show (4 : Nat) = litTrue.length from rfl, List.drop_left]]

/-- Parsing inverts serialization through a comma-separated field sequence. -/
theorem parseFieldsSeq_cons (k : List Char) (k2 : List Char) (ks : List (List Char))
    (v t : List Char) :
    parseFieldsSeq (k :: k2 :: ks) (serField k v ++ (Char.ofNat 44 :: t)) =
      (parseFieldsSeq (k2 :: ks) t).map fun q => (v :: q.1, q.2) := by
  simp only [parseFieldsSeq]
  rw [parseField_ser]
  simp only [Option.some_bind]
  rw [expectChar_cons _ _ _ (by decide)]
  simp only [Option.some_bind]

theorem parseFieldsSeq_last (k v t : List Char) :
    parseFieldsSeq [k] (serField k v ++ t) = some ([v], t) := by
  simp only [parseFieldsSeq]
  rw [parseField_ser]
  simp only [Option.some_bind]

/-- Parsing the optional tail: absent `forcePathStyle`. -/
theorem parseProfTail_none (i n e r a k t : List Char) :
    parseProfTail i n e r a k (Char.ofNat 125 :: t) = some (⟨i, n, e, r, a, k, none⟩, t) := by
  simp only [parseProfTail]
  rw [if_pos (by decide)]

/-- Parsing the optional tail: present `forcePathStyle`. -/
theorem parseProfTail_some (i n e r a k : List Char) (b : Bool) (t : List Char) :
    parseProfTail i n e r a k (serFps (some b) ++ (Char.ofNat 125 :: t)) =
      some (⟨i, n, e, r, a, k, some b⟩, t) := by
  rw [show serFps (some b) ++ (Char.ofNat 125 :: t) =
    Char.ofNat 44 :: (serStr keyForcePathStyle ++
      (Char.ofNat 58 :: (boolLit b ++ (Char.ofNat 125 :: t)))) from by simp [serFps]]
  simp only [parseProfTail]
  rw [if_neg (by decide), if_pos (by decide), parseStr_ser]
  simp only [Option.some_bind]
  rw [if_pos trivial, expectChar_cons _ _ _ (by decide)]
  simp only [Option.some_bind]
  rw [parseBool_boolLit]
  simp only [Option.some_bind]
  rw [expectChar_cons _ _ _ (by decide)]
  simp only [Option.some_bind]

/-- Parsing inverts the serialization of one endpoint object. -/
theorem parseProf_serProf (p : S3Endpoint) (t : List Char) :
    parseProf (serProf p ++ t) = some (p, t) := by
  obtain ⟨pid, pnm, pep, prg, pak, psk, pfps⟩ := p
  rw [show serProf ⟨pid, pnm, pep, prg, pak, psk, pfps⟩ ++ t =
    Char.ofNat 123 :: (serField keyId pid ++ (Char.ofNat 44 ::
      (serField keyName pnm ++ (Char.ofNat 44 ::
      (serField keyEndpoint pep ++ (Char.ofNat 44 ::
      (serField keyRegion prg ++ (Char.ofNat 44 ::
      (serField keyAccessKeyId pak ++ (Char.ofNat 44 ::
      (serField keySecretAccessKey psk ++
        (serFps pfps ++ (Char.ofNat 125 :: t)))))))))))))
    from by simp [serProf]]
  simp only [parseProf]
  rw [expectChar_cons _ _ _ (by decide)]
  simp only [Option.some_bind, profKeys]
  rw [parseFieldsSeq_cons, parseFieldsSeq_cons, parseFieldsSeq_cons, parseFieldsSeq_cons,
    parseFieldsSeq_cons, parseFieldsSeq_last]
  simp only [Option.map_some', Option.some_bind]
  cases pfps with
  | none =>
    rw [show serFps none ++ (Char.ofNat 125 :: t) = Char.ofNat 125 :: t from by simp [serFps]]
    rw [parseProfTail_none]
  | some b =>
    rw [parseProfTail_some]

theorem serProf_length_pos (p : S3Endpoint) : 1 ≤ (serProf p).length := by
  simp [serProf, List.length_append]

theorem serProfsInner_length : ∀ l : List S3Endpoint, l.length ≤ (serProfsInner l).length
  | [] => by simp [serProfsInner]
  | [p] => by
    have := serProf_length_pos p
    simp only [serProfsInner, List.length_cons, List.length_nil]
    omega
  | p :: q :: ps => by
    have h1 := serProf_length_pos p
    have h2 := serProfsInner_length (q :: ps)
    simp only [serProfsInner, List.length_append, List.length_cons] at h2 ⊢
    omega

theorem serProf_shape (p : S3Endpoint) : ∃ R, serProf p = Char.ofNat 123 :: R :=
  ⟨_, rfl⟩

theorem serProfsInner_shape (p : S3Endpoint) (ps : List S3Endpoint) :
    ∃ R, serProfsInner (p :: ps) = Char.ofNat 123 :: R := by
  cases ps with
  | nil => exact ⟨_, rfl⟩
  | cons q qs => exact ⟨_, rfl⟩

/-- Parsing inverts serialization through the fuelled array parser. -/
theorem parseProfsFuel_ser : ∀ (ps : List S3Endpoint) (p : S3Endpoint) (f : Nat)
    (t : List Char), ps.length < f →
    parseProfsFuel f (serProfsInner (p :: ps) ++ (Char.ofNat 93 :: t)) = some (p :: ps, t)
  | [], p, f + 1, t, _ => by
    simp only [serProfsInner]
    simp only [parseProfsFuel]
    rw [parseProf_serProf]
    simp only [Option.some_bind]
    rw [if_neg (by decide), if_pos (by decide)]
  | q :: ps, p, f + 1, t, hf => by
    rw [show serProfsInner (p :: q :: ps) ++ (Char.ofNat 93 :: t) =
      serProf p ++ (Char.ofNat 44 :: (serProfsInner (q :: ps) ++ (Char.ofNat 93 :: t)))
      from by simp [serProfsInner]]
    simp only [parseProfsFuel]
    rw [parseProf_serProf]
    simp only [Option.some_bind]
    rw [if_pos (by decide)]
    rw [parseProfsFuel_ser ps q f t (by simp only [List.length_cons] at hf; omega)]
    rfl

/-- Parsing inverts the serialization of an endpoint array. -/
theorem parseProfs_ser (l : List S3Endpoint) (t : List Char) :
    parseProfs (serProfs l ++ t) = some (l, t) := by
  cases l with
  | nil =>
    rw [show serProfs [] ++ t = Char.ofNat 91 :: (Char.ofNat 93 :: t)
      from by simp [serProfs, serProfsInner]]
    simp only [parseProfs]
    rw [if_pos (by decide), if_pos (by decide)]
  | cons p ps =>
    obtain ⟨R, hR⟩ := serProfsInner_shape p ps
    rw [show serProfs (p :: ps) ++ t =
      Char.ofNat 91 :: (serProfsInner (p :: ps) ++ (Char.ofNat 93 :: t))
      from by simp [serProfs]]
    rw [hR, List.cons_append]
    simp only [parseProfs]
    rw [if_pos (by decide), if_neg (by decide)]
    rw [← List.cons_append, ← hR]
    apply parseProfsFuel_ser
    have h1 := serProfsInner_length (p :: ps)
    simp only [List.length_cons, List.length_append] at h1 ⊢
    omega

/-- `JSON.parse` inverts `JSON.stringify` on endpoint arrays. -/
theorem parseProfsTop_ser (l : List S3Endpoint) : parseProfsTop (serProfs l) = some l := by
  rw [parseProfsTop, show serProfs l = serProfs l ++ [] from (List.append_nil _).symm,
    parseProfs_ser]
  rfl

/-! ## Registry lemmas -/

theorem decProfile_encProfile (p : S3Endpoint) : decProfile (encProfile p) = p := by
  obtain ⟨i, n, e, r, a, k, f⟩ := p
  simp only [encProfile, decProfile, decodeStr_encodeStr]

/-- The registry round trip: loading what was saved recovers the profiles. -/
theorem loadEndpoints_saveEndpoints (l : List S3Endpoint) (st : Store) :
    loadEndpoints (saveEndpoints l st) = l := by
  simp only [saveEndpoints, loadEndpoints]
  rw [parseProfsTop_ser]
  show (l.map encProfile).map decProfile = l
  rw [List.map_map, show decProfile ∘ encProfile = id from funext decProfile_encProfile,
    List.map_id]

/-- The codec-free registry round trip of `s3Service.ts`. -/
theorem svcLoadEndpoints_save (l : List S3Endpoint) (st : Store) :
    svcLoadEndpoints (svcSaveEndpoints l st) = l := by
  simp only [svcSaveEndpoints, svcLoadEndpoints]
  rw [parseProfsTop_ser]
  rfl

theorem findIdx?_none {α : Type} (pred : α → Bool) :
    ∀ (l : List α) (i : Nat), (∀ x ∈ l, pred x = false) → List.findIdx? pred l i = none
  | [], _, _ => rfl
  | a :: as, i, h => by
    simp only [List.findIdx?]
    rw [h a (by simp)]
    simp only [Bool.false_eq_true, if_false]
    exact findIdx?_none pred as (i + 1) (fun x hx => h x (by simp [hx]))

theorem map_eq_self_of {α : Type} (f : α → α) :
    ∀ l : List α, (∀ x ∈ l, f x = x) → l.map f = l
  | [], _ => rfl
  | x :: xs, h => by
    rw [List.map_cons, h x (by simp),
      map_eq_self_of f xs (fun y hy => h y (by simp [hy]))]

theorem head?_mem {α : Type} {l : List α} {a : α} (h : l.head? = some a) : a ∈ l := by
  match l with
  | [] => simp at h
  | x :: xs =>
    rw [List.head?_cons] at h
    cases h
    simp

theorem mem_of_getElem?_eq {α : Type} :
    ∀ (l : List α) (n : Nat) (a : α), l[n]? = some a → a ∈ l
  | [], n, a, h => by simp at h
  | x :: xs, 0, a, h => by
    simp only [List.getElem?_cons_zero] at h
    cases h
    exact List.mem_cons_self _ _
  | x :: xs, n + 1, a, h => by
    simp only [List.getElem?_cons_succ] at h
    exact List.mem_cons_of_mem _ (mem_of_getElem?_eq xs n a h)

/-! ## Length of the encoded secret -/

theorem encURI_length_ge (s : List Char) : s.length ≤ (encURI s).length := by
  induction s with
  | nil => simp [encURI]
  | cons c cs ih =>
    have := encURIChar_length_pos c
    simp only [encURI, List.length_append, List.length_cons]
    omega

theorem b64EncBytes_length_gt : ∀ bs : List Nat, ¬ bs = [] → bs.length < (b64EncBytes bs).length
  | [], h => absurd rfl h
  | [a], _ => by simp [b64EncBytes]
  | [a, b], _ => by simp [b64EncBytes]
  | a :: b :: c :: rest, _ => by
    match rest with
    | [] => simp [b64EncBytes]
    | d :: ds =>
      have := b64EncBytes_length_gt (d :: ds) (by simp)
      simp only [b64EncBytes, List.length_cons] at this ⊢
      omega

theorem encodeStr_eq_b64 (s : List Char) :
    encodeStr s = b64EncBytes ((encURI s).map Char.toNat) := by
  rw [encodeStr, jsEncode_eq]
  rfl

/-- Encoding a nonempty secret never yields the plaintext back: the encoded
form is strictly longer. -/
theorem encodeStr_ne {s : List Char} (h : ¬ s = []) : ¬ encodeStr s = s := by
  intro heq
  have h1 := encURI_length_ge s
  have hs : 1 ≤ s.length := by
    cases s with
    | nil => exact absurd rfl h
    | cons => simp
  have h2 : ¬ (encURI s).map Char.toNat = [] := by
    intro hx
    have h3 : ((encURI s).map Char.toNat).length = 0 := by rw [hx]; rfl
    rw [List.length_map] at h3
    omega
  have h3 := b64EncBytes_length_gt _ h2
  rw [List.length_map] at h3
  rw [encodeStr_eq_b64] at heq
  have h4 : (b64EncBytes ((encURI s).map Char.toNat)).length = s.length := by rw [heq]
  omega

/-! ## Navigation lemmas -/

theorem splitSlash_ne_nil : ∀ h : List Char, splitSlash h ≠ []
  | [] => by simp [splitSlash]
  | c :: r => by
    simp only [splitSlash]
    split_ifs
    · simp
    · cases hsp : splitSlash r with
      | nil => simp
      | cons s ss => simp

theorem splitSlash_parts_no_slash :
    ∀ (h : List Char), ∀ part ∈ splitSlash h, ∀ x ∈ part, ¬ x.toNat = 47
  | [] => by
    intro part hp x hx
    simp only [splitSlash, List.mem_singleton] at hp
    subst hp
    simp at hx
  | c :: r => by
    intro part hp x hx
    simp only [splitSlash] at hp
    by_cases h47 : c.toNat = 47
    · rw [if_pos h47] at hp
      rcases List.mem_cons.mp hp with rfl | hp2
      · simp at hx
      · exact splitSlash_parts_no_slash r part hp2 x hx
    · rw [if_neg h47] at hp
      cases hsp : splitSlash r with
      | nil => exact absurd hsp (splitSlash_ne_nil r)
      | cons s ss =>
        rw [hsp] at hp
        rcases List.mem_cons.mp hp with rfl | hp2
        · rcases List.mem_cons.mp hx with rfl | hx2
          · exact h47
          · have hmem : s ∈ splitSlash r := by rw [hsp]; exact List.mem_cons_self s ss
            exact splitSlash_parts_no_slash r s hmem x hx2
        · have hmem : part ∈ splitSlash r := by
            rw [hsp]; exact List.mem_cons_of_mem s hp2
          exact splitSlash_parts_no_slash r part hmem x hx

theorem splitSlash_single :
    ∀ a : List Char, (∀ x ∈ a, ¬ x.toNat = 47) → splitSlash a = [a]
  | [], _ => rfl
  | c :: a, h => by
    simp only [splitSlash]
    rw [if_neg (h c (by simp)), splitSlash_single a (fun x hx => h x (by simp [hx]))]

theorem splitSlash_append :
    ∀ (a rest : List Char), (∀ x ∈ a, ¬ x.toNat = 47) →
    splitSlash (a ++ (Char.ofNat 47 :: rest)) = a :: splitSlash rest
  | [], rest, _ => by
    rw [List.nil_append]
    simp only [splitSlash]
    rw [if_pos (by decide)]
  | c :: a, rest, h => by
    rw [List.cons_append]
    simp only [splitSlash]
    rw [if_neg (h c (by simp)), splitSlash_append a rest (fun x hx => h x (by simp [hx]))]

theorem joinSlash_splitSlash : ∀ h : List Char, joinSlash (splitSlash h) = h
  | [] => rfl
  | c :: r => by
    simp only [splitSlash]
    by_cases h47 : c.toNat = 47
    · rw [if_pos h47]
      cases hsp : splitSlash r with
      | nil => exact absurd hsp (splitSlash_ne_nil r)
      | cons s ss =>
        have hj := joinSlash_splitSlash r
        rw [hsp] at hj
        simp only [joinSlash, List.nil_append]
        rw [hj, show Char.ofNat 47 = c from by rw [← h47, Char.ofNat_toNat]]
    · rw [if_neg h47]
      cases hsp : splitSlash r with
      | nil => exact absurd hsp (splitSlash_ne_nil r)
      | cons s ss =>
        have hj := joinSlash_splitSlash r
        rw [hsp] at hj
        cases ss with
        | nil =>
          simp only [joinSlash] at hj ⊢
          rw [hj]
        | cons u us =>
          simp only [joinSlash] at hj ⊢
          rw [List.cons_append, hj]

/-- Unfolding of `parseHash` on a nonempty fragment. -/
theorem parseHash_eq (h : List Char) (hne : ¬ h = []) : parseHash h =
    { endpointName := (splitSlash h).headD [],
      bucket := if 1 < (splitSlash h).length then ((splitSlash h)[1]?).getD [] else [],
      path := if 2 < (splitSlash h).length then joinSlash ((splitSlash h).drop 2)
        else [] } := by
  rw [parseHash, if_neg hne]

theorem parseHash_endpointName_no_slash (h : List Char) :
    ∀ x ∈ (parseHash h).endpointName, ¬ x.toNat = 47 := by
  by_cases hq : h = []
  · subst hq
    intro x hx
    simp [parseHash] at hx
  · rw [parseHash_eq h hq]
    intro x hx
    cases hsp : splitSlash h with
    | nil => exact absurd hsp (splitSlash_ne_nil h)
    | cons s ss =>
      rw [hsp] at hx
      simp only [List.headD_cons] at hx
      have hmem : s ∈ splitSlash h := by rw [hsp]; exact List.mem_cons_self s ss
      exact splitSlash_parts_no_slash h s hmem x hx

theorem parseHash_bucket_no_slash (h : List Char) :
    ∀ x ∈ (parseHash h).bucket, ¬ x.toNat = 47 := by
  by_cases hq : h = []
  · subst hq
    intro x hx
    simp [parseHash] at hx
  · rw [parseHash_eq h hq]
    intro x hx
    simp only [] at hx
    by_cases hlen : 1 < (splitSlash h).length
    · rw [if_pos hlen] at hx
      cases hg : (splitSlash h)[1]? with
      | none => rw [hg] at hx; simp at hx
      | some v =>
        rw [hg] at hx
        simp only [Option.getD_some] at hx
        exact splitSlash_parts_no_slash h v (mem_of_getElem?_eq _ 1 v hg) x hx
    · rw [if_neg hlen] at hx
      simp at hx

/-- The round trip of the shareable location string, for triples respecting the
cascade invariant (bucket only with endpoint, path only with bucket) and with
slash-free endpoint and bucket names. -/
theorem nav_roundtrip (e b p : List Char) (he : ∀ x ∈ e, ¬ x.toNat = 47)
    (hb : ∀ x ∈ b, ¬ x.toNat = 47) (hbe : ¬ b = [] → ¬ e = [])
    (hpb : ¬ p = [] → ¬ b = []) :
    parseHash (updateHash e b p) = ⟨e, b, p⟩ := by
  by_cases heq : e = []
  · have hbq : b = [] := by
      by_contra hne
      exact hbe hne heq
    have hpq : p = [] := by
      by_contra hne
      exact hpb hne hbq
    subst heq; subst hbq; subst hpq
    rfl
  · by_cases hbq : b = []
    · have hpq : p = [] := by
        by_contra hne
        exact hpb hne hbq
      subst hbq; subst hpq
      rw [show updateHash e [] [] = e from by simp [updateHash, heq]]
      rw [parseHash_eq e heq, splitSlash_single e he]
      simp [List.headD_cons]
    · by_cases hpq : p = []
      · subst hpq
        rw [show updateHash e b [] = e ++ (Char.ofNat 47 :: b) from by
          simp [updateHash, heq, hbq]]
        rw [parseHash_eq _ (by simp [heq])]
        rw [splitSlash_append e _ he, splitSlash_single b hb]
        simp [List.headD_cons]
      · rw [show updateHash e b p = e ++ (Char.ofNat 47 :: (b ++ (Char.ofNat 47 :: p)))
          from by simp [updateHash, heq, hbq, hpq]]
        rw [parseHash_eq _ (by simp [heq])]
        rw [splitSlash_append e _ he, splitSlash_append b _ hb]
        obtain ⟨s, ss, hsss⟩ : ∃ s ss, splitSlash p = s :: ss := by
          cases hq : splitSlash p with
          | nil => exact absurd hq (splitSlash_ne_nil p)
          | cons s ss => exact ⟨s, ss, rfl⟩
        rw [hsss]
        have hj : joinSlash (s :: ss) = p := by rw [← hsss, joinSlash_splitSlash]
        simp only [List.headD_cons, List.length_cons, NavTriple.mk.injEq]
        refine ⟨by trivial, ?_, ?_⟩
        · rw [if_pos (by omega)]
          simp
        · rw [if_pos (by omega)]
          simp only [List.drop_succ_cons, List.drop_zero]
          exact hj

theorem parseHash_single (e : List Char) (hne : ¬ e = [])
    (he : ∀ x ∈ e, ¬ x.toNat = 47) : parseHash e = ⟨e, [], []⟩ := by
  have h1 := nav_roundtrip e [] [] he (by simp) (fun hx => absurd rfl hx)
    (fun hx => absurd rfl hx)
  rw [show updateHash e [] [] = e from by simp [updateHash, hne]] at h1
  exact h1

/-- Clearing the bucket always produces the state (endpoint, no bucket, empty
path), for every current fragment. -/
theorem backToBuckets_eq (h : List Char) :
    parseHash (handleBackToBuckets h) = ⟨(parseHash h).endpointName, [], []⟩ := by
  rw [handleBackToBuckets]
  by_cases hq : (parseHash h).endpointName = []
  · rw [hq]
    rfl
  · exact nav_roundtrip _ [] [] (parseHash_endpointName_no_slash h) (by simp)
      (fun hne => absurd rfl hne) (fun hne => absurd rfl hne)

/-- Changing only the path preserves the endpoint and bucket components, as
long as an endpoint is selected. -/
theorem pathChange_eq (p h : List Char) (he : ¬ (parseHash h).endpointName = []) :
    (parseHash (handlePathChange p h)).endpointName = (parseHash h).endpointName ∧
    (parseHash (handlePathChange p h)).bucket = (parseHash h).bucket := by
  rw [handlePathChange]
  by_cases hb : (parseHash h).bucket = []
  · rw [hb]
    rw [show updateHash (parseHash h).endpointName [] p = (parseHash h).endpointName from by
      simp [updateHash, he]]
    rw [parseHash_single _ he (parseHash_endpointName_no_slash h)]
    exact ⟨rfl, rfl⟩
  · rw [nav_roundtrip (parseHash h).endpointName (parseHash h).bucket p
      (parseHash_endpointName_no_slash h) (parseHash_bucket_no_slash h)
      (fun _ => he) (fun _ => hb)]
    exact ⟨rfl, rfl⟩

/-! ## Claim theorems -/

/-- Claim C1: for every string `s` (including the empty string and non-ASCII
strings), `encode` succeeds (`btoa` accepts the ASCII output of
`encodeURIComponent`), is deterministic (it is a function of `s`), and
`decode (encode s) = s`. -/
theorem claim_C1 : ∀ s : List Char, ∃ t, jsEncode s = some t ∧ decodeStr t = s := by
  intro s
  refine ⟨_, jsEncode_eq s, ?_⟩
  have h := decodeStr_encodeStr s
  rw [encodeStr, jsEncode_eq] at h
  exact h

/-- Claim C2 (counterexample): the `storage.ts` registry is keyed by `name`,
not by the stable `id`.  For the profile with `id = "a"` and `name = "n"`,
`deleteEndpoint` applied to the id `"a"` leaves the registry still containing
an entry with id `"a"`, and `updateEndpoint` with a profile whose `id`
(`"zzz"`) matches no stored entry still changes the stored registry, because
its `name` matches. -/
theorem claim_C2_counterexample :
    loadEndpoints (deleteEndpoint cexProfileA.id (saveEndpoints [cexProfileA] none)) =
      [cexProfileA] ∧
    ¬ cexProfileA.id = cexProfileA.name ∧
    (∀ e ∈ loadEndpoints (saveEndpoints [cexProfileA] none), ¬ e.id = cexProfileB.id) ∧
    ¬ loadEndpoints (updateEndpoint cexProfileB (saveEndpoints [cexProfileA] none)) =
      loadEndpoints (saveEndpoints [cexProfileA] none) := by
  refine ⟨by decide, by decide, by decide, by decide⟩

/-- Claim C2 (amended): registry mutation in `storage.ts` is keyed by the
profile's `name`: after `deleteEndpoint name`, the registry no longer contains
an entry with that `name`, and `updateEndpoint` with a profile whose `name`
matches no stored entry leaves the backing record untouched.  The hook
registry of `unnamed/part_004` is keyed by the stable `id` as the claim
states: after its delete no entry with that `id` remains (and the saved
record matches), and its update with an unknown `id` leaves the list
unchanged. -/
theorem claim_C2 :
    (∀ (st : Store) (nm : List Char),
      ((loadEndpoints (deleteEndpoint nm st)).all fun e => ¬ e.name = nm) = true) ∧
    (∀ (st : Store) (p : S3Endpoint),
      ((loadEndpoints st).all fun e => ¬ e.name = p.name) = true →
      updateEndpoint p st = st) ∧
    (∀ (st : BrowserState) (endpointId : List Char),
      ((hookDeleteEndpoint endpointId st).endpoints.all fun e => ¬ e.id = endpointId) =
        true ∧
      svcLoadEndpoints (hookDeleteEndpoint endpointId st).store =
        (hookDeleteEndpoint endpointId st).endpoints) ∧
    (∀ (st : BrowserState) (p : S3Endpoint),
      (st.endpoints.all fun e => ¬ e.id = p.id) = true →
      (hookUpdateEndpoint p st).endpoints = st.endpoints) := by
  refine ⟨?_, ?_, ?_, ?_⟩
  · intro st nm
    simp only [deleteEndpoint]
    rw [loadEndpoints_saveEndpoints, List.all_eq_true]
    intro e he
    exact (List.mem_filter.mp he).2
  · intro st p hall
    rw [List.all_eq_true] at hall
    simp only [updateEndpoint]
    rw [findIdx?_none _ _ 0 (fun e he => by
      have h1 := hall e he
      rw [decide_eq_true_eq] at h1
      exact decide_eq_false h1)]
  · intro st endpointId
    constructor
    · simp only [hookDeleteEndpoint]
      rw [List.all_eq_true]
      intro e he
      exact (List.mem_filter.mp he).2
    · simp only [hookDeleteEndpoint]
      exact svcLoadEndpoints_save _ _
  · intro st p hall
    rw [List.all_eq_true] at hall
    simp only [hookUpdateEndpoint]
    apply map_eq_self_of
    intro e he
    have h1 := hall e he
    rw [decide_eq_true_eq] at h1
    rw [if_neg h1]

/-- Claim C2 (witness for the amended statement): concrete instances of the
name-keyed delete and of the no-op update with an unmatched name. -/
theorem claim_C2_witness :
    ((loadEndpoints (deleteEndpoint (("n").data) cexStore)).all
      fun e => ¬ e.name = (("n").data)) = true ∧
    updateEndpoint cexProfileC cexStore = cexStore := by
  refine ⟨claim_C2.1 cexStore (("n").data), claim_C2.2.1 cexStore cexProfileC (by decide)⟩

/-- Claim C3 (counterexample): the `saveEndpoints` of `s3Service.ts` writes the
profiles without applying the credential codec: the backing record it writes
parses back to the profile with the plaintext secret, which differs from the
codec-transformed form. -/
theorem claim_C3_counterexample :
    svcSaveEndpoints [cexSvcProfile] none = some (serProfs [cexSvcProfile]) ∧
    parseProfsTop (serProfs [cexSvcProfile]) = some [cexSvcProfile] ∧
    ¬ encodeStr cexSvcProfile.secretAccessKey = cexSvcProfile.secretAccessKey ∧
    ¬ encodeStr cexSvcProfile.accessKeyId = cexSvcProfile.accessKeyId := by
  refine ⟨rfl, by decide, by decide, by decide⟩

/-- Claim C3 (amended): the `saveEndpoints` of `storage.ts` writes the single
backing record holding every profile with both secret fields in
codec-transformed form (`encode` applied); for every nonempty secret the
stored field differs from the plaintext (the transform strictly lengthens
nonempty strings).  The `s3Service.ts` variant stores the profiles
unencoded. -/
theorem claim_C3 : ∀ (l : List S3Endpoint) (st : Store),
    saveEndpoints l st = some (serProfs (l.map encProfile)) ∧
    parseProfsTop (serProfs (l.map encProfile)) = some (l.map encProfile) ∧
    ∀ p ∈ l, (encProfile p).accessKeyId = encodeStr p.accessKeyId ∧
      (encProfile p).secretAccessKey = encodeStr p.secretAccessKey ∧
      (¬ p.accessKeyId = [] → ¬ (encProfile p).accessKeyId = p.accessKeyId) ∧
      (¬ p.secretAccessKey = [] → ¬ (encProfile p).secretAccessKey = p.secretAccessKey) := by
  intro l st
  refine ⟨rfl, parseProfsTop_ser _, ?_⟩
  intro p _
  refine ⟨rfl, rfl, ?_, ?_⟩
  · intro hne
    exact encodeStr_ne hne
  · intro hne
    exact encodeStr_ne hne

/-- Claim C3 (witness for the amended statement): a concrete save writes the
serialized encoded profiles, and the stored secret differs from the
plaintext. -/
theorem claim_C3_witness :
    saveEndpoints [cexProfileA] none = some (serProfs ([cexProfileA].map encProfile)) ∧
    ¬ (encProfile cexProfileA).secretAccessKey = cexProfileA.secretAccessKey := by
  have h := claim_C3 [cexProfileA] none
  exact ⟨h.1, (h.2.2 cexProfileA (by decide)).2.2.2 (by decide)⟩

/-- Claim C4: `decode` never raises — the `try`/`catch` returns the input
unchanged whenever `decodeURIComponent (atob s)` fails; in particular
`decode "not-valid-encoded-data"` returns its input unchanged. -/
theorem claim_C4 :
    decodeStr (("not-valid-encoded-data").data) = ("not-valid-encoded-data").data ∧
    ∀ s : List Char, jsDecodeAttempt s = none → decodeStr s = s := by
  constructor
  · decide
  · intro s hs
    rw [decodeStr, hs]
    rfl

/-- Claim C4 (witness): the fail-soft branch at the malformed input `"%"`. -/
theorem claim_C4_witness : decodeStr (("%").data) = ("%").data :=
  claim_C4.2 _ (by decide)

/-- Claim C5: `loadEndpoints` never throws: it returns `[]` when the backing
record is absent and `[]` when the record fails to parse, in both the
`storage.ts` and the `s3Service.ts` variants. -/
theorem claim_C5 :
    loadEndpoints none = [] ∧ svcLoadEndpoints none = [] ∧
    ∀ d : List Char, parseProfsTop d = none →
      loadEndpoints (some d) = [] ∧ svcLoadEndpoints (some d) = [] := by
  refine ⟨rfl, rfl, fun d hd => ⟨?_, ?_⟩⟩
  · simp only [loadEndpoints]
    rw [hd]
  · simp only [svcLoadEndpoints]
    rw [hd]
    rfl

/-- Claim C5 (witness): a concrete unparsable record degrades to the empty
registry. -/
theorem claim_C5_witness :
    loadEndpoints (some (("garbage").data)) = [] ∧
    svcLoadEndpoints (some (("garbage").data)) = [] :=
  claim_C5.2.2 (("garbage").data) (by decide)

/-- Claim C6 (counterexample): the triple `("", "assets", "")` has slash-free
endpoint and bucket components, yet encoding truncates at the empty endpoint
and decoding yields `("", "", "")`, so the round trip fails for it. -/
theorem claim_C6_counterexample :
    (∀ x ∈ ([] : List Char), ¬ x.toNat = 47) ∧
    (∀ x ∈ ("assets").data, ¬ x.toNat = 47) ∧
    ¬ parseHash (updateHash [] (("assets").data) []) =
      ⟨[], ("assets").data, []⟩ := by
  refine ⟨by decide, by decide, by decide⟩

/-- Claim C6 (amended): the round trip holds for every triple whose
`endpointName` and `bucketName` contain no `/` and which respects the cascade
invariant (a bucket only with an endpoint, a nonempty path only with a
bucket); internal slashes of the path are preserved. -/
theorem claim_C6 :
    ∀ e b p : List Char, (∀ x ∈ e, ¬ x.toNat = 47) → (∀ x ∈ b, ¬ x.toNat = 47) →
    (¬ b = [] → ¬ e = []) → (¬ p = [] → ¬ b = []) →
    parseHash (updateHash e b p) = ⟨e, b, p⟩ :=
  fun e b p he hb hbe hpb => nav_roundtrip e b p he hb hbe hpb

/-- Claim C6 (witness): the triple `("prod", "assets", "images/2024/")`
encodes to `"prod/assets/images/2024/"` and decodes back to itself. -/
theorem claim_C6_witness :
    updateHash (("prod").data) (("assets").data) (("images/2024/").data) =
      ("prod/assets/images/2024/").data ∧
    parseHash (updateHash (("prod").data) (("assets").data) (("images/2024/").data)) =
      ⟨("prod").data, ("assets").data, ("images/2024/").data⟩ :=
  ⟨by decide, claim_C6 _ _ _ (by decide) (by decide) (by decide) (by decide)⟩

/-- Claim C7 (counterexample): `S3Service.listObjects` of `s3Service.ts` does
not filter the prefix marker: when the SDK response `Contents` holds the
marker object whose key equals the requested prefix `"photos/"`, the returned
object entries contain it as a non-folder entry. -/
theorem claim_C7_counterexample :
    cexListResp.contents = [⟨("photos/").data, 0⟩] ∧
    (s3ServiceListObjects cexListResp).1 =
      [{ key := ("photos/").data, size := 0, isFolder := false }] := by
  refine ⟨rfl, by decide⟩

/-- Claim C7 (amended): the `listObjects` of `s3Client.ts` excludes the prefix
marker — no returned non-folder entry has a key equal to the requested
prefix — while every other `Contents` entry and every common prefix is
returned; `s3Service.ts`'s `listObjects` returns `Contents` unfiltered. -/
theorem claim_C7 : ∀ (resp : ListResponse) (pfx : List Char),
    (((s3ClientListObjects resp pfx).filter fun o => !o.isFolder).all
      fun o => ¬ o.key = pfx) = true ∧
    (∀ o ∈ resp.contents, ¬ o.key = pfx →
      ({ key := o.key, size := o.size, isFolder := false } : ObjectInfo) ∈
        s3ClientListObjects resp pfx) ∧
    (∀ q ∈ resp.commonPrefixes,
      ({ key := q, size := 0, isFolder := true } : ObjectInfo) ∈
        s3ClientListObjects resp pfx) := by
  intro resp pfx
  refine ⟨?_, ?_, ?_⟩
  · rw [List.all_eq_true]
    intro o ho
    rw [List.mem_filter] at ho
    obtain ⟨hmem, hnf⟩ := ho
    simp only [s3ClientListObjects] at hmem
    rw [List.mem_append] at hmem
    rcases hmem with hm | hm
    · rw [List.mem_map] at hm
      obtain ⟨q, _, rfl⟩ := hm
      simp at hnf
    · rw [List.mem_map] at hm
      obtain ⟨ro, hro, rfl⟩ := hm
      rw [List.mem_filter] at hro
      exact hro.2
  · intro o ho hne
    simp only [s3ClientListObjects]
    rw [List.mem_append]
    right
    rw [List.mem_map]
    exact ⟨o, List.mem_filter.mpr ⟨ho, decide_eq_true hne⟩, rfl⟩
  · intro q hq
    simp only [s3ClientListObjects]
    rw [List.mem_append]
    left
    rw [List.mem_map]
    exact ⟨q, hq, rfl⟩

/-- Claim C7 (witness for the amended statement): a concrete response where
the marker is excluded while the object under the prefix and the common
prefix are both returned. -/
theorem claim_C7_witness :
    (((s3ClientListObjects wListResp (("photos/").data)).filter
      fun o => !o.isFolder).all fun o => ¬ o.key = ("photos/").data) = true ∧
    ({ key := ("photos/cat.jpg").data, size := 5, isFolder := false } : ObjectInfo) ∈
      s3ClientListObjects wListResp (("photos/").data) ∧
    ({ key := ("photos/sub/").data, size := 0, isFolder := true } : ObjectInfo) ∈
      s3ClientListObjects wListResp (("photos/").data) := by
  refine ⟨(claim_C7 wListResp (("photos/").data)).1, ?_, ?_⟩
  · exact (claim_C7 wListResp (("photos/").data)).2.1 ⟨("photos/cat.jpg").data, 5⟩
      (by decide) (by decide)
  · exact (claim_C7 wListResp (("photos/").data)).2.2 (("photos/sub/").data) (by decide)

/-- Claim C8 (counterexample): from the degenerate selection decoded from the
fragment `"/b1"` — no endpoint, bucket `"b1"` — changing only the path
re-encodes through the truncating `updateHash` and clears the bucket, so a
path-only change does not leave the bucket untouched there. -/
theorem claim_C8_counterexample :
    (parseHash (("/b1").data)).bucket = ("b1").data ∧
    (parseHash (handlePathChange (("x").data) (("/b1").data))).bucket = [] := by
  refine ⟨by decide, by decide⟩

/-- Claim C8 (amended): clearing the bucket always yields
`(endpoint, no bucket, empty path)`; changing only the path preserves the
endpoint and bucket components whenever an endpoint is selected (the
counterexample forces that proviso).  In the drawer variant of
`unnamed/part_000` both parts hold unconditionally. -/
theorem claim_C8 :
    (∀ h : List Char, parseHash (handleBackToBuckets h) =
      ⟨(parseHash h).endpointName, [], []⟩) ∧
    (∀ p h : List Char, ¬ (parseHash h).endpointName = [] →
      (parseHash (handlePathChange p h)).endpointName = (parseHash h).endpointName ∧
      (parseHash (handlePathChange p h)).bucket = (parseHash h).bucket) ∧
    (∀ (st : LegacyNavState) (p : List Char),
      (legacyBackToBuckets st).selectedBucket = none ∧
      (legacyBackToBuckets st).currentPath = [] ∧
      (legacyBackToBuckets st).selectedEndpoint = st.selectedEndpoint ∧
      (legacyPathChange p st).selectedEndpoint = st.selectedEndpoint ∧
      (legacyPathChange p st).selectedBucket = st.selectedBucket) := by
  refine ⟨backToBuckets_eq, pathChange_eq, ?_⟩
  intro st p
  exact ⟨rfl, rfl, rfl, rfl, rfl⟩

/-- Claim C8 (witness): the scenario of the claim — from
`(endpoint="e1", bucket="b1", path="x/")`, clear-bucket yields
`(endpoint="e1", no bucket, empty path)`, and a path-only change keeps the
bucket. -/
theorem claim_C8_witness :
    parseHash (handleBackToBuckets (("e1/b1/x/").data)) = ⟨("e1").data, [], []⟩ ∧
    (parseHash (handlePathChange (("y").data) (("e1/b1/x/").data))).bucket =
      ("b1").data := by
  constructor
  · have h := claim_C8.1 (("e1/b1/x/").data)
    rw [h]
    decide
  · have h := (claim_C8.2.1 (("y").data) (("e1/b1/x/").data) (by decide)).2
    rw [h]
    decide

/-- Claim C9: deleting a profile clears a selection that pointed at it: after
the hook's `deleteEndpoint` the selection never references the deleted `id`
(it moves to the first remaining profile or `none`), and likewise for the
`handleDelete` of the second `EndpointManager` variant over the spec-modelled
id-keyed registry. -/
theorem claim_C9 :
    (∀ (endpointId : List Char) (st : BrowserState) (e : S3Endpoint),
      (hookDeleteEndpoint endpointId st).selectedEndpoint = some e →
      ¬ e.id = endpointId) ∧
    (∀ (endpointId : List Char) (sel : Option S3Endpoint) (st : Store) (e : S3Endpoint),
      (emHandleDelete endpointId sel st).1 = some e → ¬ e.id = endpointId) := by
  constructor
  · intro endpointId st e h
    simp only [hookDeleteEndpoint] at h
    by_cases hsel : st.selectedEndpoint.map S3Endpoint.id = some endpointId
    · rw [if_pos hsel] at h
      have hmem := head?_mem h
      have h2 := (List.mem_filter.mp hmem).2
      rw [decide_eq_true_eq] at h2
      exact h2
    · rw [if_neg hsel] at h
      intro heq
      apply hsel
      rw [h, Option.map_some', heq]
  · intro endpointId sel st e h
    simp only [emHandleDelete, specDeleteEndpointById] at h
    by_cases hsel : sel.map S3Endpoint.id = some endpointId
    · rw [if_pos hsel] at h
      rw [loadEndpoints_saveEndpoints] at h
      have hmem := head?_mem h
      have h2 := (List.mem_filter.mp hmem).2
      rw [decide_eq_true_eq] at h2
      exact h2
    · rw [if_neg hsel] at h
      intro heq
      apply hsel
      rw [h, Option.map_some', heq]

/-- Claim C9 (witness): deleting the selected profile `h1` moves the
selection to the remaining profile `h2`, which does not reference the deleted
id. -/
theorem claim_C9_witness :
    (hookDeleteEndpoint (("h1").data) wHookState).selectedEndpoint =
      some cexProfileH2 ∧
    ¬ cexProfileH2.id = ("h1").data := by
  refine ⟨by decide, claim_C9.1 (("h1").data) wHookState cexProfileH2 (by decide)⟩

/-- Claim C10: the bulk delete with an empty key list returns without issuing
any command to the gateway. -/
theorem claim_C10 : ∀ bucket : List Char, deleteObjectsCommands bucket [] = [] := by
  intro bucket
  rfl

end S3Browser
